import Mathlib

/-!
# kitchen_sync: packed-value transcription and row serialization

A shallow embedding of `src/message_pack/copy_packed.h` and
`src/row_serialization.h`, with the properties of the specification stated
and proved over it.

Conventions of the embedding:

* a `uint8_t` is a `Fin 256`; `size_t` values are `Nat` (no arithmetic in the
  embedded code can overflow: lengths are only decremented or compared);
* a C++ function that mutates its arguments returns the new values; a function
  that can throw returns an `Outcome`;
* the templates over `Stream` / `OutputStream` take the stream's `read` /
  `write` member as an explicit argument;
* the mutual recursion `copy_object` / `copy_array` / `copy_map` is driven by a
  fuel argument that bounds the nesting depth only; the loops themselves are
  structural on the element count.
-/

namespace KitchenSync

/-- A byte (`uint8_t`). -/
abbrev Byte := Fin 256

/-! ## Tag values -/

/-- Modelled from the spec: tag of nil; the tag macros come from the MessagePack
headers behind `pack.h`/`unpack.h`, which are not among the sources. -/
abbrev MSGPACK_NIL : Byte := 0xc0
/-- Modelled from the spec: tag of false (macro not among the sources). -/
abbrev MSGPACK_FALSE : Byte := 0xc2
/-- Modelled from the spec: tag of true (macro not among the sources). -/
abbrev MSGPACK_TRUE : Byte := 0xc3
/-- Modelled from the spec: first positive fixint tag (macro not among the sources). -/
abbrev MSGPACK_POSITIVE_FIXNUM_MIN : Byte := 0x00
/-- Modelled from the spec: last positive fixint tag (macro not among the sources). -/
abbrev MSGPACK_POSITIVE_FIXNUM_MAX : Byte := 0x7f
/-- Modelled from the spec: first negative fixint tag (macro not among the sources). -/
abbrev MSGPACK_NEGATIVE_FIXNUM_MIN : Byte := 0xe0
/-- Modelled from the spec: last negative fixint tag (macro not among the sources). -/
abbrev MSGPACK_NEGATIVE_FIXNUM_MAX : Byte := 0xff
/-- Modelled from the spec: first fixed-string tag (macro not among the sources). -/
abbrev MSGPACK_FIXRAW_MIN : Byte := 0xa0
/-- Modelled from the spec: last fixed-string tag (macro not among the sources). -/
abbrev MSGPACK_FIXRAW_MAX : Byte := 0xbf
/-- Modelled from the spec: first fixed-array tag (macro not among the sources). -/
abbrev MSGPACK_FIXARRAY_MIN : Byte := 0x90
/-- Modelled from the spec: last fixed-array tag (macro not among the sources). -/
abbrev MSGPACK_FIXARRAY_MAX : Byte := 0x9f
/-- Modelled from the spec: first fixed-map tag (macro not among the sources). -/
abbrev MSGPACK_FIXMAP_MIN : Byte := 0x80
/-- Modelled from the spec: last fixed-map tag (macro not among the sources). -/
abbrev MSGPACK_FIXMAP_MAX : Byte := 0x8f
/-- Modelled from the spec: tag of float32 (macro not among the sources). -/
abbrev MSGPACK_FLOAT : Byte := 0xca
/-- Modelled from the spec: tag of float64 (macro not among the sources). -/
abbrev MSGPACK_DOUBLE : Byte := 0xcb
/-- Modelled from the spec: tag of uint8 (macro not among the sources). -/
abbrev MSGPACK_UINT8 : Byte := 0xcc
/-- Modelled from the spec: tag of uint16 (macro not among the sources). -/
abbrev MSGPACK_UINT16 : Byte := 0xcd
/-- Modelled from the spec: tag of uint32 (macro not among the sources). -/
abbrev MSGPACK_UINT32 : Byte := 0xce
/-- Modelled from the spec: tag of uint64 (macro not among the sources). -/
abbrev MSGPACK_UINT64 : Byte := 0xcf
/-- Modelled from the spec: tag of int8 (macro not among the sources). -/
abbrev MSGPACK_INT8 : Byte := 0xd0
/-- Modelled from the spec: tag of int16 (macro not among the sources). -/
abbrev MSGPACK_INT16 : Byte := 0xd1
/-- Modelled from the spec: tag of int32 (macro not among the sources). -/
abbrev MSGPACK_INT32 : Byte := 0xd2
/-- Modelled from the spec: tag of int64 (macro not among the sources). -/
abbrev MSGPACK_INT64 : Byte := 0xd3
/-- Modelled from the spec: tag of string16 (macro not among the sources). -/
abbrev MSGPACK_RAW16 : Byte := 0xda
/-- Modelled from the spec: tag of string32 (macro not among the sources). -/
abbrev MSGPACK_RAW32 : Byte := 0xdb
/-- Modelled from the spec: tag of array16 (macro not among the sources). -/
abbrev MSGPACK_ARRAY16 : Byte := 0xdc
/-- Modelled from the spec: tag of array32 (macro not among the sources). -/
abbrev MSGPACK_ARRAY32 : Byte := 0xdd
/-- Modelled from the spec: tag of map16 (macro not among the sources). -/
abbrev MSGPACK_MAP16 : Byte := 0xde
/-- Modelled from the spec: tag of map32 (macro not among the sources). -/
abbrev MSGPACK_MAP32 : Byte := 0xdf

/-! ## Packed buffer, failures, outcomes -/

/-- Modelled from the spec: the Packed Buffer of `packed_value.h` (not among the
sources), a growable byte container. -/
structure PackedValue where
  /-- The bytes held, `data()[0 .. size())`. -/
  data : List Byte
deriving DecidableEq, Repr

/-- Modelled from the spec: `clear()` truncates to empty. -/
def PackedValue.clear (_obj : PackedValue) : PackedValue := ⟨[]⟩

/-- Modelled from the spec: `size()`. -/
def PackedValue.size (obj : PackedValue) : Nat := obj.data.length

/-- Modelled from the spec: `extend(n)` grows the buffer by exactly `n` bytes and
hands the new range to the caller to write into; `filled` is what the caller
wrote there (`n = filled.length`). -/
def PackedValue.extend (obj : PackedValue) (filled : List Byte) : PackedValue :=
  ⟨obj.data ++ filled⟩

/-- What stops a transcription. -/
inductive Failure where
  /-- The exception `unpacker_error(what)` thrown by `copy_object`. -/
  | unpacker_error (what : String)
  /-- The error a stream raises from `read` on a short read. -/
  | stream_error
  /-- A `VectorReadStream::read` past the end of its value (the `memcpy` is
  unchecked; the behaviour is undefined). -/
  | out_of_bounds
deriving DecidableEq, Repr

/-- Result of a step over a stream of type `σ`: a value and the stream after it,
a failure and the stream at the point of failure, or exhaustion of the
recursion budget of the embedding. The buffer after a failure is not carried
here; `transcribe_storage` gives it, from the storage of the buffer and the
reads made. -/
inductive Outcome (σ : Type) (α : Type) where
  | ok (value : α) (unpacker : σ)
  | raise (e : Failure) (unpacker : σ)
  | no_fuel
deriving DecidableEq, Repr

/-- Sequencing: failures and fuel exhaustion propagate unchanged. -/
def Outcome.and_then {σ α β : Type} (x : Outcome σ α) (f : α → σ → Outcome σ β) :
    Outcome σ β :=
  match x with
  | .ok a u => f a u
  | .raise e u => .raise e u
  | .no_fuel => .no_fuel

/-! ## Streams -/

/-- Modelled from the spec: the readable byte stream primitive
`read_exact(n) -> bytes, fails on short read`, over the finite list of bytes
still to come. A short read raises the stream error and leaves the stream as
it was. -/
def ListStream.read (s : List Byte) (bytes : Nat) : Outcome (List Byte) (List Byte) :=
  if bytes ≤ s.length then .ok (s.take bytes) (s.drop bytes) else .raise .stream_error s

/-- The struct `VectorReadStream`: a value and a read position. -/
structure VectorReadStream where
  value : PackedValue
  pos : Nat
deriving DecidableEq, Repr

/-- The constructor `VectorReadStream(value)`: position 0. -/
def VectorReadStream.mk_at_start (value : PackedValue) : VectorReadStream := ⟨value, 0⟩

/-- The member `VectorReadStream::read`: copies `bytes` bytes from
`value.data() + pos` and advances `pos`. The source does not check the bound;
a read past the end is reported as `out_of_bounds`. -/
def VectorReadStream.read (s : VectorReadStream) (bytes : Nat) :
    Outcome VectorReadStream (List Byte) :=
  if s.pos + bytes ≤ s.value.size then
    .ok ((s.value.data.drop s.pos).take bytes) ⟨s.value, s.pos + bytes⟩
  else .raise .out_of_bounds s

/-! ## copy_packed.h -/

/-- The cast-and-swap `ntohs(*(uint16_t *)p)`: the two bytes at `p`, in stream
order, as a big-endian number (whatever the host byte order). -/
def ntohs_at (p : List Byte) : Nat :=
  256 * (p.getD 0 0).val + (p.getD 1 0).val

/-- The cast-and-swap `ntohl(*(uint32_t *)p)`: the four bytes at `p`, in stream
order, as a big-endian number. -/
def ntohl_at (p : List Byte) : Nat :=
  16777216 * (p.getD 0 0).val + 65536 * (p.getD 1 0).val + 256 * (p.getD 2 0).val
    + (p.getD 3 0).val

/-- The function `copy_bytes`: extends `obj` by `bytes` bytes, reads them from the
stream into the new range, and returns the range (with the new `obj`). -/
def copy_bytes {σ : Type} (read : σ → Nat → Outcome σ (List Byte))
    (unpacker : σ) (obj : PackedValue) (bytes : Nat) : Outcome σ (List Byte × PackedValue) :=
  (read unpacker bytes).and_then fun start_of_data u => .ok (start_of_data, obj.extend start_of_data) u

/-- The function `copy_array`: `while (size--) copy_object(unpacker, obj);` -/
def copy_array {σ : Type} (copy_object : σ → PackedValue → Outcome σ PackedValue) :
    Nat → σ → PackedValue → Outcome σ PackedValue
  | 0, unpacker, obj => .ok obj unpacker
  | size + 1, unpacker, obj =>
    (copy_object unpacker obj).and_then fun obj1 u1 => copy_array copy_object size u1 obj1

/-- The function `copy_map`:
`while (size--) { copy_object(unpacker, obj); copy_object(unpacker, obj); }` -/
def copy_map {σ : Type} (copy_object : σ → PackedValue → Outcome σ PackedValue) :
    Nat → σ → PackedValue → Outcome σ PackedValue
  | 0, unpacker, obj => .ok obj unpacker
  | size + 1, unpacker, obj =>
    (copy_object unpacker obj).and_then fun obj1 u1 =>
    (copy_object u1 obj1).and_then fun obj2 u2 => copy_map copy_object size u2 obj2

/-- Drops the returned pointer of a `copy_bytes` call used as a statement. -/
def discard_ptr {σ : Type} (x : Outcome σ (List Byte × PackedValue)) : Outcome σ PackedValue :=
  x.and_then fun r u => .ok r.2 u

/-- The function `copy_object`. `fuel` bounds the nesting depth of the recursion
through `copy_array` / `copy_map`; the `backtrace()` call of the default branch
only prints and is left out. -/
def copy_object {σ : Type} (read : σ → Nat → Outcome σ (List Byte)) :
    Nat → σ → PackedValue → Outcome σ PackedValue
  | 0, _, _ => .no_fuel
  | fuel + 1, unpacker, obj =>
    (copy_bytes read unpacker obj 1).and_then fun r unpacker =>
    let leader : Byte := r.1.getD 0 0
    let obj := r.2
    if (leader = MSGPACK_NIL ∨ leader = MSGPACK_FALSE ∨ leader = MSGPACK_TRUE) ∨
        (leader ≥ MSGPACK_POSITIVE_FIXNUM_MIN ∧ leader ≤ MSGPACK_POSITIVE_FIXNUM_MAX) ∨
        (leader ≥ MSGPACK_NEGATIVE_FIXNUM_MIN ∧ leader ≤ MSGPACK_NEGATIVE_FIXNUM_MAX) then
      .ok obj unpacker
    else if leader ≥ MSGPACK_FIXRAW_MIN ∧ leader ≤ MSGPACK_FIXRAW_MAX then
      discard_ptr (copy_bytes read unpacker obj (leader.val &&& 31))
    else if leader ≥ MSGPACK_FIXARRAY_MIN ∧ leader ≤ MSGPACK_FIXARRAY_MAX then
      copy_array (copy_object read fuel) (leader.val &&& 15) unpacker obj
    else if leader ≥ MSGPACK_FIXMAP_MIN ∧ leader ≤ MSGPACK_FIXMAP_MAX then
      copy_map (copy_object read fuel) (leader.val &&& 15) unpacker obj
    else if leader = MSGPACK_FLOAT then discard_ptr (copy_bytes read unpacker obj 4)
    else if leader = MSGPACK_DOUBLE then discard_ptr (copy_bytes read unpacker obj 8)
    else if leader = MSGPACK_UINT8 then discard_ptr (copy_bytes read unpacker obj 1)
    else if leader = MSGPACK_UINT16 then discard_ptr (copy_bytes read unpacker obj 2)
    else if leader = MSGPACK_UINT32 then discard_ptr (copy_bytes read unpacker obj 4)
    else if leader = MSGPACK_UINT64 then discard_ptr (copy_bytes read unpacker obj 8)
    else if leader = MSGPACK_INT8 then discard_ptr (copy_bytes read unpacker obj 1)
    else if leader = MSGPACK_INT16 then discard_ptr (copy_bytes read unpacker obj 2)
    else if leader = MSGPACK_INT32 then discard_ptr (copy_bytes read unpacker obj 4)
    else if leader = MSGPACK_INT64 then discard_ptr (copy_bytes read unpacker obj 8)
    else if leader = MSGPACK_RAW16 then
      (copy_bytes read unpacker obj 2).and_then fun l unpacker =>
        discard_ptr (copy_bytes read unpacker l.2 (ntohs_at l.1))
    else if leader = MSGPACK_RAW32 then
      (copy_bytes read unpacker obj 4).and_then fun l unpacker =>
        discard_ptr (copy_bytes read unpacker l.2 (ntohl_at l.1))
    else if leader = MSGPACK_ARRAY16 then
      (copy_bytes read unpacker obj 2).and_then fun l unpacker =>
        copy_array (copy_object read fuel) (ntohs_at l.1) unpacker l.2
    else if leader = MSGPACK_ARRAY32 then
      (copy_bytes read unpacker obj 4).and_then fun l unpacker =>
        copy_array (copy_object read fuel) (ntohl_at l.1) unpacker l.2
    else if leader = MSGPACK_MAP16 then
      (copy_bytes read unpacker obj 2).and_then fun l unpacker =>
        copy_map (copy_object read fuel) (ntohs_at l.1) unpacker l.2
    else if leader = MSGPACK_MAP32 then
      (copy_bytes read unpacker obj 4).and_then fun l unpacker =>
        copy_map (copy_object read fuel) (ntohl_at l.1) unpacker l.2
    else
      .raise (.unpacker_error
        ("Don't know how to size MessagePack type " ++ toString leader.val)) unpacker

/-- The operator `operator >>(Unpacker<Stream> &, PackedValue &)`:
`obj.clear(); copy_object(unpacker, obj);` -/
def operator_rshift {σ : Type} (read : σ → Nat → Outcome σ (List Byte)) (fuel : Nat)
    (unpacker : σ) (obj : PackedValue) : Outcome σ PackedValue :=
  copy_object read fuel unpacker obj.clear

/-- The operator `operator <<(Packer<Stream> &, const PackedValue &)`:
`packer.write_bytes(obj.data(), obj.size());` -/
def operator_lshift {ω : Type} (write : ω → List Byte → ω) (packer : ω) (obj : PackedValue) : ω :=
  write packer (obj.data.take obj.size)

/-- Transcription from a finite stream: `unpacker >> obj` with a recursion budget
above the length of the stream, hence above the nesting depth of anything it
holds. -/
def transcribe (stream : List Byte) (obj : PackedValue) : Outcome (List Byte) PackedValue :=
  operator_rshift ListStream.read (stream.length + 1) stream obj

/-- Modelled from the spec: the writable byte stream primitive `write(bytes)`,
over the list of bytes written so far. -/
def ListStream.write (out : List Byte) (bytes : List Byte) : List Byte := out ++ bytes

/-! ## The wire format, as the specification describes it -/

/-- The classes of the leading byte of an encoded value (specification, data
model and wire-format table). -/
inductive TagClass where
  /-- nil, false, true, a positive or a negative fixint: no further bytes. -/
  | immediate
  /-- float32/float64 and the eight integer tags: a payload of `size` bytes. -/
  | fixed (size : Nat)
  /-- Short string: the low 5 bits of the tag give the byte count. -/
  | fixraw
  /-- Short array: the low 4 bits of the tag give the element count. -/
  | fixarray
  /-- Short map: the low 4 bits of the tag give the pair count. -/
  | fixmap
  | raw16
  | raw32
  | array16
  | array32
  | map16
  | map32
  /-- Not a defined tag. -/
  | unknown
deriving DecidableEq, Repr

/-- The class of a tag byte: the wire-format table, read in increasing order of
the tag value. -/
def tag_class (t : Byte) : TagClass :=
  if t ≤ MSGPACK_POSITIVE_FIXNUM_MAX then .immediate
  else if MSGPACK_FIXMAP_MIN ≤ t ∧ t ≤ MSGPACK_FIXMAP_MAX then .fixmap
  else if MSGPACK_FIXARRAY_MIN ≤ t ∧ t ≤ MSGPACK_FIXARRAY_MAX then .fixarray
  else if MSGPACK_FIXRAW_MIN ≤ t ∧ t ≤ MSGPACK_FIXRAW_MAX then .fixraw
  else if t = MSGPACK_NIL ∨ t = MSGPACK_FALSE ∨ t = MSGPACK_TRUE then .immediate
  else if t = MSGPACK_FLOAT then .fixed 4
  else if t = MSGPACK_DOUBLE then .fixed 8
  else if t = MSGPACK_UINT8 ∨ t = MSGPACK_INT8 then .fixed 1
  else if t = MSGPACK_UINT16 ∨ t = MSGPACK_INT16 then .fixed 2
  else if t = MSGPACK_UINT32 ∨ t = MSGPACK_INT32 then .fixed 4
  else if t = MSGPACK_UINT64 ∨ t = MSGPACK_INT64 then .fixed 8
  else if t = MSGPACK_RAW16 then .raw16
  else if t = MSGPACK_RAW32 then .raw32
  else if t = MSGPACK_ARRAY16 then .array16
  else if t = MSGPACK_ARRAY32 then .array32
  else if t = MSGPACK_MAP16 then .map16
  else if t = MSGPACK_MAP32 then .map32
  else if MSGPACK_NEGATIVE_FIXNUM_MIN ≤ t then .immediate
  else .unknown

/-- Big-endian value of a 16-bit length field. -/
def be16 (b0 b1 : Byte) : Nat := 256 * b0.val + b1.val

/-- Big-endian value of a 32-bit length field. -/
def be32 (b0 b1 b2 b3 : Byte) : Nat :=
  16777216 * b0.val + 65536 * b1.val + 256 * b2.val + b3.val

/-- `WellFormedSeq n bs`: the bytes `bs` are exactly `n` complete encoded values,
one after the other. Each constructor puts one value in front of `n` others:
its tag, its length field if the class has one, and then its payload bytes, its
elements, or its key/value pairs (twice the pair count of values). -/
inductive WellFormedSeq : Nat → List Byte → Prop where
  | nil : WellFormedSeq 0 []
  | immediate (t : Byte) (n : Nat) (rest : List Byte)
      (ht : tag_class t = .immediate) (hr : WellFormedSeq n rest) :
      WellFormedSeq (n + 1) (t :: rest)
  | fixed (t : Byte) (k : Nat) (payload : List Byte) (n : Nat) (rest : List Byte)
      (ht : tag_class t = .fixed k) (hp : payload.length = k) (hr : WellFormedSeq n rest) :
      WellFormedSeq (n + 1) (t :: (payload ++ rest))
  | fixraw (t : Byte) (payload : List Byte) (n : Nat) (rest : List Byte)
      (ht : tag_class t = .fixraw) (hp : payload.length = t.val % 32)
      (hr : WellFormedSeq n rest) :
      WellFormedSeq (n + 1) (t :: (payload ++ rest))
  | fixarray (t : Byte) (body : List Byte) (n : Nat) (rest : List Byte)
      (ht : tag_class t = .fixarray) (hb : WellFormedSeq (t.val % 16) body)
      (hr : WellFormedSeq n rest) :
      WellFormedSeq (n + 1) (t :: (body ++ rest))
  | fixmap (t : Byte) (body : List Byte) (n : Nat) (rest : List Byte)
      (ht : tag_class t = .fixmap) (hb : WellFormedSeq (2 * (t.val % 16)) body)
      (hr : WellFormedSeq n rest) :
      WellFormedSeq (n + 1) (t :: (body ++ rest))
  | raw16 (t b0 b1 : Byte) (payload : List Byte) (n : Nat) (rest : List Byte)
      (ht : tag_class t = .raw16) (hp : payload.length = be16 b0 b1)
      (hr : WellFormedSeq n rest) :
      WellFormedSeq (n + 1) (t :: b0 :: b1 :: (payload ++ rest))
  | raw32 (t b0 b1 b2 b3 : Byte) (payload : List Byte) (n : Nat) (rest : List Byte)
      (ht : tag_class t = .raw32) (hp : payload.length = be32 b0 b1 b2 b3)
      (hr : WellFormedSeq n rest) :
      WellFormedSeq (n + 1) (t :: b0 :: b1 :: b2 :: b3 :: (payload ++ rest))
  | array16 (t b0 b1 : Byte) (body : List Byte) (n : Nat) (rest : List Byte)
      (ht : tag_class t = .array16) (hb : WellFormedSeq (be16 b0 b1) body)
      (hr : WellFormedSeq n rest) :
      WellFormedSeq (n + 1) (t :: b0 :: b1 :: (body ++ rest))
  | array32 (t b0 b1 b2 b3 : Byte) (body : List Byte) (n : Nat) (rest : List Byte)
      (ht : tag_class t = .array32) (hb : WellFormedSeq (be32 b0 b1 b2 b3) body)
      (hr : WellFormedSeq n rest) :
      WellFormedSeq (n + 1) (t :: b0 :: b1 :: b2 :: b3 :: (body ++ rest))
  | map16 (t b0 b1 : Byte) (body : List Byte) (n : Nat) (rest : List Byte)
      (ht : tag_class t = .map16) (hb : WellFormedSeq (2 * be16 b0 b1) body)
      (hr : WellFormedSeq n rest) :
      WellFormedSeq (n + 1) (t :: b0 :: b1 :: (body ++ rest))
  | map32 (t b0 b1 b2 b3 : Byte) (body : List Byte) (n : Nat) (rest : List Byte)
      (ht : tag_class t = .map32) (hb : WellFormedSeq (2 * be32 b0 b1 b2 b3) body)
      (hr : WellFormedSeq n rest) :
      WellFormedSeq (n + 1) (t :: b0 :: b1 :: b2 :: b3 :: (body ++ rest))

/-- A well-formed encoded value: exactly one complete encoded value. -/
def WellFormed (e : List Byte) : Prop := WellFormedSeq 1 e

/-- What `copy_object` does after the leader, by the class of the leader. -/
def after_leader {σ : Type} (read : σ → Nat → Outcome σ (List Byte)) (fuel : Nat)
    (leader : Byte) (unpacker : σ) (obj : PackedValue) : Outcome σ PackedValue :=
  match tag_class leader with
  | .immediate => .ok obj unpacker
  | .fixed k => discard_ptr (copy_bytes read unpacker obj k)
  | .fixraw => discard_ptr (copy_bytes read unpacker obj (leader.val % 32))
  | .fixarray => copy_array (copy_object read fuel) (leader.val % 16) unpacker obj
  | .fixmap => copy_map (copy_object read fuel) (leader.val % 16) unpacker obj
  | .raw16 => (copy_bytes read unpacker obj 2).and_then fun l unpacker =>
      discard_ptr (copy_bytes read unpacker l.2 (ntohs_at l.1))
  | .raw32 => (copy_bytes read unpacker obj 4).and_then fun l unpacker =>
      discard_ptr (copy_bytes read unpacker l.2 (ntohl_at l.1))
  | .array16 => (copy_bytes read unpacker obj 2).and_then fun l unpacker =>
      copy_array (copy_object read fuel) (ntohs_at l.1) unpacker l.2
  | .array32 => (copy_bytes read unpacker obj 4).and_then fun l unpacker =>
      copy_array (copy_object read fuel) (ntohl_at l.1) unpacker l.2
  | .map16 => (copy_bytes read unpacker obj 2).and_then fun l unpacker =>
      copy_map (copy_object read fuel) (ntohs_at l.1) unpacker l.2
  | .map32 => (copy_bytes read unpacker obj 4).and_then fun l unpacker =>
      copy_map (copy_object read fuel) (ntohl_at l.1) unpacker l.2
  | .unknown => .raise (.unpacker_error
      ("Don't know how to size MessagePack type " ++ toString leader.val)) unpacker

/-! ## row_serialization.h -/

/-- The byte with value `n mod 256`. -/
def byte_of (n : Nat) : Byte := ⟨n % 256, Nat.mod_lt n (by decide)⟩

/-- Modelled from the spec: a 16-bit length field, big-endian (the encoder of
`pack.h` is not among the sources). -/
def be16_bytes (n : Nat) : List Byte := [byte_of (n / 256), byte_of n]

/-- Modelled from the spec: a 32-bit length field, big-endian (the encoder of
`pack.h` is not among the sources). -/
def be32_bytes (n : Nat) : List Byte :=
  [byte_of (n / 16777216), byte_of (n / 65536), byte_of (n / 256), byte_of n]

/-- Modelled from the spec: the array-length marker that `Packer::pack_array_length`
(`pack.h`, not among the sources) writes: the short form for up to 15 elements,
then array16, then array32. -/
def array_length_marker (size : Nat) : List Byte :=
  if size < 16 then [byte_of (MSGPACK_FIXARRAY_MIN.val + size)]
  else if size < 65536 then MSGPACK_ARRAY16 :: be16_bytes size
  else MSGPACK_ARRAY32 :: be32_bytes size

/-- Modelled from the spec: the nil marker that `Packer::pack_nil` (`pack.h`, not
among the sources) writes. -/
def nil_marker : List Byte := [MSGPACK_NIL]

/-- Modelled from the spec: the marker in front of a raw byte string of `len`
bytes, as `Packer::pack_raw` (`pack.h`, not among the sources) writes it: the
fixed-string form for up to 31 bytes, then string16, then string32. -/
def raw_marker (len : Nat) : List Byte :=
  if len < 32 then [byte_of (MSGPACK_FIXRAW_MIN.val + len)]
  else if len < 65536 then MSGPACK_RAW16 :: be16_bytes len
  else MSGPACK_RAW32 :: be32_bytes len

/-- Modelled from the spec: `Packer<OutputStream>::pack_array_length(size)`, over
the `write` member of the output stream. -/
def Packer.pack_array_length {ω : Type} (write : ω → List Byte → ω) (packer : ω) (size : Nat) : ω :=
  write packer (array_length_marker size)

/-- Modelled from the spec: `Packer<OutputStream>::pack_nil()`. -/
def Packer.pack_nil {ω : Type} (write : ω → List Byte → ω) (packer : ω) : ω :=
  write packer nil_marker

/-- Modelled from the spec: `packer << string`, a length-prefixed raw byte string:
the marker, then the bytes. -/
def Packer.pack_string {ω : Type} (write : ω → List Byte → ω) (packer : ω)
    (str : List Byte) : ω :=
  write (write packer (raw_marker str.length)) str

/-- Modelled from the spec: the database row accessor (`n_columns()`,
`null_at(i)`, `string_at(i)`), an external collaborator. A `std::string` is
its list of bytes. -/
structure DatabaseRow where
  n_columns : Nat
  null_at : Nat → Bool
  string_at : Nat → List Byte

/-- A row given by its columns, `none` for a null column. -/
def DatabaseRow.of_columns (columns : List (Option (List Byte))) : DatabaseRow where
  n_columns := columns.length
  null_at i := (columns.getD i none).isNone
  string_at i := (columns.getD i none).getD []

/-- The member `RowPacker::pack_end`: `packer.pack_array_length(0);` -/
def RowPacker.pack_end {ω : Type} (write : ω → List Byte → ω) (packer : ω) : ω :=
  Packer.pack_array_length write packer 0

/-- The member `RowPacker::operator()`: the array length, then per column in index
order (the `for` loop over `i < row.n_columns()`) nil or the string. -/
def RowPacker.call {ω : Type} (write : ω → List Byte → ω) (packer : ω) (row : DatabaseRow) : ω :=
  (List.range row.n_columns).foldl
    (fun packer i =>
      if row.null_at i then Packer.pack_nil write packer
      else Packer.pack_string write packer (row.string_at i))
    (Packer.pack_array_length write packer row.n_columns)

/-- The struct `Hash`: `md_len` and the first `md_len` bytes of `md_value`. -/
structure Hash where
  md_len : Nat
  md_value : List Byte
deriving DecidableEq, Repr

/-- The struct `RowHasher`. The digest context `mdctx` is modelled from the spec
(digest primitive: init, repeated update, finalize) as the list of the chunks
passed to `EVP_DigestUpdate` since `EVP_DigestInit_ex`, oldest first. -/
structure RowHasher where
  mdctx : List (List Byte)
  row_count : Nat
  /-- The member `hash`, written by `finish()`; empty until then. -/
  hash : Hash
deriving DecidableEq, Repr

/-- The constructor `RowHasher()` when the digest is available: `row_count(0)` and
a freshly initialised digest context. -/
def RowHasher.new : RowHasher := ⟨[], 0, ⟨0, []⟩⟩

/-- The member `RowHasher::write`: `EVP_DigestUpdate(mdctx, buf, bytes);` -/
def RowHasher.write (self : RowHasher) (buf : List Byte) : RowHasher :=
  { self with mdctx := self.mdctx ++ [buf] }

/-- The member `RowHasher::operator()`: `row_count++`, then the row is packed
through `row_packer`, the `Packer<RowHasher>` whose output stream is the hasher
itself. -/
def RowHasher.call (self : RowHasher) (row : DatabaseRow) : RowHasher :=
  (List.range row.n_columns).foldl
    (fun self i =>
      if row.null_at i then Packer.pack_nil RowHasher.write self
      else Packer.pack_string RowHasher.write self (row.string_at i))
    (Packer.pack_array_length RowHasher.write { self with row_count := self.row_count + 1 }
      row.n_columns)

/-- The member `RowHasher::finish`: `EVP_DigestFinal_ex(mdctx, hash.md_value,
&hash.md_len)`. The digest function (`md5` in the source) is the parameter
`digest`; finalising yields the digest of all the bytes fed, in order. -/
def RowHasher.finish (digest : List Byte → List Byte) (self : RowHasher) : Hash :=
  ⟨(digest self.mdctx.flatten).length, digest self.mdctx.flatten⟩

/-- The object after `finish()`: the digest has been written to the member `hash`;
the finalised context is not fed again. -/
def RowHasher.finished (digest : List Byte → List Byte) (self : RowHasher) : RowHasher :=
  { self with hash := self.finish digest }

/-- The call `vector<string>::resize(n)`: cut to `n` entries, or padded with empty
strings up to `n`. -/
def vector_resize (v : List (List Byte)) (n : Nat) : List (List Byte) :=
  v.take n ++ List.replicate (n - v.length) []

/-- The struct `RowLastKey`. -/
structure RowLastKey where
  primary_key_columns : List Nat
  last_key : List (List Byte)
deriving DecidableEq, Repr

/-- The constructor `RowLastKey(primary_key_columns)`: no key yet. -/
def RowLastKey.new (primary_key_columns : List Nat) : RowLastKey := ⟨primary_key_columns, []⟩

/-- The member `RowLastKey::operator()`: `last_key.resize(primary_key_columns.size())`,
then `last_key[i] = row.string_at(primary_key_columns[i])` for each `i` in order. -/
def RowLastKey.call (self : RowLastKey) (row : DatabaseRow) : RowLastKey :=
  { self with
    last_key := (List.range self.primary_key_columns.length).foldl
      (fun last_key i => last_key.set i (row.string_at (self.primary_key_columns.getD i 0)))
      (vector_resize self.last_key self.primary_key_columns.length) }

/-- The struct `RowHasherAndLastKey: RowHasher, RowLastKey`. -/
structure RowHasherAndLastKey extends RowHasher, RowLastKey
deriving DecidableEq, Repr

/-- The constructor `RowHasherAndLastKey(primary_key_columns)`. -/
def RowHasherAndLastKey.new (primary_key_columns : List Nat) : RowHasherAndLastKey :=
  { toRowHasher := RowHasher.new, toRowLastKey := RowLastKey.new primary_key_columns }

/-- The hasher step of the composite: `RowHasher::operator()(row);` -/
def RowHasherAndLastKey.hasher_step (self : RowHasherAndLastKey) (row : DatabaseRow) :
    RowHasherAndLastKey :=
  { self with toRowHasher := self.toRowHasher.call row }

/-- The last-key step of the composite: `RowLastKey::operator()(row);` -/
def RowHasherAndLastKey.last_key_step (self : RowHasherAndLastKey) (row : DatabaseRow) :
    RowHasherAndLastKey :=
  { self with toRowLastKey := self.toRowLastKey.call row }

/-- The member `RowHasherAndLastKey::operator()`: `RowHasher::operator()(row);` and
then `RowLastKey::operator()(row);` -/
def RowHasherAndLastKey.call (self : RowHasherAndLastKey) (row : DatabaseRow) :
    RowHasherAndLastKey :=
  (self.hasher_step row).last_key_step row

/-- Two rows show the same columns: same column count, same null flags, and the
same string in every column that is not null. -/
def SameColumns (r1 r2 : DatabaseRow) : Prop :=
  r1.n_columns = r2.n_columns ∧
    ∀ i, i < r1.n_columns → r1.null_at i = r2.null_at i ∧
      (r1.null_at i = false → r1.string_at i = r2.string_at i)

/-- Modelled from the spec: the external row-range cursor, which feeds the rows
one at a time, in order, to a visitor. -/
def visit_rows {ω : Type} (visitor : ω → DatabaseRow → ω) (init : ω) (rows : List DatabaseRow) : ω :=
  rows.foldl visitor init

/-- The encoding of one column: the nil marker, or the string length-prefixed. -/
def column_encoding (row : DatabaseRow) (i : Nat) : List Byte :=
  if row.null_at i then nil_marker else raw_marker (row.string_at i).length ++ row.string_at i

/-- The encoding of one row: the array-length marker for its column count, then
its columns in index order. -/
def row_encoding (row : DatabaseRow) : List Byte :=
  array_length_marker row.n_columns ++ (List.range row.n_columns).flatMap (column_encoding row)

/-- The row `["abc", null, "12345678901234567890123456789012"]`. -/
def sample_row : DatabaseRow :=
  DatabaseRow.of_columns
    [some [0x61, 0x62, 0x63], none,
     some [0x31, 0x32, 0x33, 0x34, 0x35, 0x36, 0x37, 0x38, 0x39, 0x30,
           0x31, 0x32, 0x33, 0x34, 0x35, 0x36, 0x37, 0x38, 0x39, 0x30,
           0x31, 0x32, 0x33, 0x34, 0x35, 0x36, 0x37, 0x38, 0x39, 0x30, 0x31, 0x32]]

/-! ## Notions used in the statements -/

/-- `ReadsFrom read R`: on a stream related by `R` to the list of bytes it still
holds, a `read` of no more bytes than that returns them and leaves the rest. -/
def ReadsFrom {σ : Type} (read : σ → Nat → Outcome σ (List Byte)) (R : σ → List Byte → Prop) : Prop :=
  ∀ u l n, R u l → n ≤ l.length → ∃ u1, read u n = .ok (l.take n) u1 ∧ R u1 (l.drop n)

/-- What a `VectorReadStream` over `v` still holds: the bytes of `v` from `pos` on,
with `pos` inside the value. -/
def VectorReadStream.Holds (v : PackedValue) (u : VectorReadStream) (l : List Byte) : Prop :=
  u.value = v ∧ u.pos ≤ v.size ∧ l = v.data.drop u.pos

/-- `Copied n s obj obj1 r`: going from stream `s` and buffer `obj` to stream `r` and
buffer `obj1` consumed `n` complete values and appended exactly their bytes. -/
def Copied (n : Nat) (s : List Byte) (obj obj1 : PackedValue) (r : List Byte) : Prop :=
  ∃ c, WellFormedSeq n c ∧ s = c ++ r ∧ obj1.data = obj.data ++ c

/-- `TruncatedFails n bs`: on every proper prefix of `bs`, copying `n` values from
the list stream ends in the stream's short-read error. -/
def TruncatedFails (n : Nat) (bs : List Byte) : Prop :=
  ∀ p : List Byte, p <+: bs → p ≠ bs → ∀ fuel : Nat, p.length < fuel → ∀ obj : PackedValue,
    ∃ r, copy_array (copy_object ListStream.read fuel) n p obj = .raise .stream_error r

/-- `TruncatedFailsOne v`: the same for a single call of `copy_object`. -/
def TruncatedFailsOne (v : List Byte) : Prop :=
  ∀ p : List Byte, p <+: v → p ≠ v → ∀ fuel : Nat, p.length < fuel → ∀ obj : PackedValue,
    ∃ r, copy_object ListStream.read fuel p obj = .raise .stream_error r

/-- The tests `copy_object` makes on the leader, in the order of the source: the
first `if`, the three range tests, and the sixteen `case` labels. -/
def copy_object_tests : List (Byte → Bool) :=
  [fun leader => decide
      ((leader = MSGPACK_NIL ∨ leader = MSGPACK_FALSE ∨ leader = MSGPACK_TRUE) ∨
        (leader ≥ MSGPACK_POSITIVE_FIXNUM_MIN ∧ leader ≤ MSGPACK_POSITIVE_FIXNUM_MAX) ∨
        (leader ≥ MSGPACK_NEGATIVE_FIXNUM_MIN ∧ leader ≤ MSGPACK_NEGATIVE_FIXNUM_MAX)),
   fun leader => decide (leader ≥ MSGPACK_FIXRAW_MIN ∧ leader ≤ MSGPACK_FIXRAW_MAX),
   fun leader => decide (leader ≥ MSGPACK_FIXARRAY_MIN ∧ leader ≤ MSGPACK_FIXARRAY_MAX),
   fun leader => decide (leader ≥ MSGPACK_FIXMAP_MIN ∧ leader ≤ MSGPACK_FIXMAP_MAX),
   fun leader => decide (leader = MSGPACK_FLOAT),
   fun leader => decide (leader = MSGPACK_DOUBLE),
   fun leader => decide (leader = MSGPACK_UINT8),
   fun leader => decide (leader = MSGPACK_UINT16),
   fun leader => decide (leader = MSGPACK_UINT32),
   fun leader => decide (leader = MSGPACK_UINT64),
   fun leader => decide (leader = MSGPACK_INT8),
   fun leader => decide (leader = MSGPACK_INT16),
   fun leader => decide (leader = MSGPACK_INT32),
   fun leader => decide (leader = MSGPACK_INT64),
   fun leader => decide (leader = MSGPACK_RAW16),
   fun leader => decide (leader = MSGPACK_RAW32),
   fun leader => decide (leader = MSGPACK_ARRAY16),
   fun leader => decide (leader = MSGPACK_ARRAY32),
   fun leader => decide (leader = MSGPACK_MAP16),
   fun leader => decide (leader = MSGPACK_MAP32)]

/-- The branches of `copy_object` after the leader has been read, as the list of
its tests, in the order of the source, each with what the branch does. -/
def copy_object_branches {σ : Type} (read : σ → Nat → Outcome σ (List Byte)) (fuel : Nat)
    (unpacker : σ) (obj : PackedValue) : List ((Byte → Bool) × (Byte → Outcome σ PackedValue)) :=
  [(fun leader => decide
      ((leader = MSGPACK_NIL ∨ leader = MSGPACK_FALSE ∨ leader = MSGPACK_TRUE) ∨
        (leader ≥ MSGPACK_POSITIVE_FIXNUM_MIN ∧ leader ≤ MSGPACK_POSITIVE_FIXNUM_MAX) ∨
        (leader ≥ MSGPACK_NEGATIVE_FIXNUM_MIN ∧ leader ≤ MSGPACK_NEGATIVE_FIXNUM_MAX)),
    fun _ => .ok obj unpacker),
   (fun leader => decide (leader ≥ MSGPACK_FIXRAW_MIN ∧ leader ≤ MSGPACK_FIXRAW_MAX),
    fun leader => discard_ptr (copy_bytes read unpacker obj (leader.val &&& 31))),
   (fun leader => decide (leader ≥ MSGPACK_FIXARRAY_MIN ∧ leader ≤ MSGPACK_FIXARRAY_MAX),
    fun leader => copy_array (copy_object read fuel) (leader.val &&& 15) unpacker obj),
   (fun leader => decide (leader ≥ MSGPACK_FIXMAP_MIN ∧ leader ≤ MSGPACK_FIXMAP_MAX),
    fun leader => copy_map (copy_object read fuel) (leader.val &&& 15) unpacker obj),
   (fun leader => decide (leader = MSGPACK_FLOAT),
    fun _ => discard_ptr (copy_bytes read unpacker obj 4)),
   (fun leader => decide (leader = MSGPACK_DOUBLE),
    fun _ => discard_ptr (copy_bytes read unpacker obj 8)),
   (fun leader => decide (leader = MSGPACK_UINT8),
    fun _ => discard_ptr (copy_bytes read unpacker obj 1)),
   (fun leader => decide (leader = MSGPACK_UINT16),
    fun _ => discard_ptr (copy_bytes read unpacker obj 2)),
   (fun leader => decide (leader = MSGPACK_UINT32),
    fun _ => discard_ptr (copy_bytes read unpacker obj 4)),
   (fun leader => decide (leader = MSGPACK_UINT64),
    fun _ => discard_ptr (copy_bytes read unpacker obj 8)),
   (fun leader => decide (leader = MSGPACK_INT8),
    fun _ => discard_ptr (copy_bytes read unpacker obj 1)),
   (fun leader => decide (leader = MSGPACK_INT16),
    fun _ => discard_ptr (copy_bytes read unpacker obj 2)),
   (fun leader => decide (leader = MSGPACK_INT32),
    fun _ => discard_ptr (copy_bytes read unpacker obj 4)),
   (fun leader => decide (leader = MSGPACK_INT64),
    fun _ => discard_ptr (copy_bytes read unpacker obj 8)),
   (fun leader => decide (leader = MSGPACK_RAW16),
    fun _ => (copy_bytes read unpacker obj 2).and_then fun l unpacker =>
      discard_ptr (copy_bytes read unpacker l.2 (ntohs_at l.1))),
   (fun leader => decide (leader = MSGPACK_RAW32),
    fun _ => (copy_bytes read unpacker obj 4).and_then fun l unpacker =>
      discard_ptr (copy_bytes read unpacker l.2 (ntohl_at l.1))),
   (fun leader => decide (leader = MSGPACK_ARRAY16),
    fun _ => (copy_bytes read unpacker obj 2).and_then fun l unpacker =>
      copy_array (copy_object read fuel) (ntohs_at l.1) unpacker l.2),
   (fun leader => decide (leader = MSGPACK_ARRAY32),
    fun _ => (copy_bytes read unpacker obj 4).and_then fun l unpacker =>
      copy_array (copy_object read fuel) (ntohl_at l.1) unpacker l.2),
   (fun leader => decide (leader = MSGPACK_MAP16),
    fun _ => (copy_bytes read unpacker obj 2).and_then fun l unpacker =>
      copy_map (copy_object read fuel) (ntohs_at l.1) unpacker l.2),
   (fun leader => decide (leader = MSGPACK_MAP32),
    fun _ => (copy_bytes read unpacker obj 4).and_then fun l unpacker =>
      copy_map (copy_object read fuel) (ntohl_at l.1) unpacker l.2)]

/-- The default branch of `copy_object`: the format error. -/
def copy_object_default {σ : Type} (unpacker : σ) (leader : Byte) : Outcome σ PackedValue :=
  .raise (.unpacker_error
    ("Don't know how to size MessagePack type " ++ toString leader.val)) unpacker

/-- An if/else chain: the action of the first branch whose test passes, or the
default when none does. -/
def first_match {α : Type} (branches : List ((Byte → Bool) × (Byte → α))) (default : Byte → α)
    (leader : Byte) : α :=
  match branches.find? (fun b => b.1 leader) with
  | some b => b.2 leader
  | none => default leader

/-- The classes of the wire-format table, one test per class: nil, false, true,
positive fixint, negative fixint, short string, short array, short map, the ten
fixed-size numeric tags, string16/32, array16/32, map16/32. -/
def leader_classes : List (Byte → Bool) :=
  [fun t => decide (t = MSGPACK_NIL),
   fun t => decide (t = MSGPACK_FALSE),
   fun t => decide (t = MSGPACK_TRUE),
   fun t => decide (t ≥ MSGPACK_POSITIVE_FIXNUM_MIN ∧ t ≤ MSGPACK_POSITIVE_FIXNUM_MAX),
   fun t => decide (t ≥ MSGPACK_NEGATIVE_FIXNUM_MIN ∧ t ≤ MSGPACK_NEGATIVE_FIXNUM_MAX),
   fun t => decide (t ≥ MSGPACK_FIXRAW_MIN ∧ t ≤ MSGPACK_FIXRAW_MAX),
   fun t => decide (t ≥ MSGPACK_FIXARRAY_MIN ∧ t ≤ MSGPACK_FIXARRAY_MAX),
   fun t => decide (t ≥ MSGPACK_FIXMAP_MIN ∧ t ≤ MSGPACK_FIXMAP_MAX),
   fun t => decide (t = MSGPACK_FLOAT),
   fun t => decide (t = MSGPACK_DOUBLE),
   fun t => decide (t = MSGPACK_UINT8),
   fun t => decide (t = MSGPACK_UINT16),
   fun t => decide (t = MSGPACK_UINT32),
   fun t => decide (t = MSGPACK_UINT64),
   fun t => decide (t = MSGPACK_INT8),
   fun t => decide (t = MSGPACK_INT16),
   fun t => decide (t = MSGPACK_INT32),
   fun t => decide (t = MSGPACK_INT64),
   fun t => decide (t = MSGPACK_RAW16),
   fun t => decide (t = MSGPACK_RAW32),
   fun t => decide (t = MSGPACK_ARRAY16),
   fun t => decide (t = MSGPACK_ARRAY32),
   fun t => decide (t = MSGPACK_MAP16),
   fun t => decide (t = MSGPACK_MAP32)]

/-- The bytes that are no tag of the format: 0xc1, 0xc4-0xc9, 0xd4-0xd9. -/
def is_unknown_tag (t : Byte) : Prop :=
  t = 0xc1 ∨ (0xc4 ≤ t ∧ t ≤ 0xc9) ∨ (0xd4 ≤ t ∧ t ≤ 0xd9)

instance (t : Byte) : Decidable (is_unknown_tag t) := by
  unfold is_unknown_tag; infer_instance

/-- A row whose column count and string lengths fit the 32-bit length fields. -/
def DatabaseRow.Bounded (row : DatabaseRow) : Prop :=
  row.n_columns < 2 ^ 32 ∧
    ∀ i, i < row.n_columns → row.null_at i = false → (row.string_at i).length < 2 ^ 32

/-- Repeated transcription by a reader of the stream: `count` values, one after the
other, each into a fresh buffer. -/
def transcribe_many : Nat → List Byte → Outcome (List Byte) (List PackedValue)
  | 0, stream => .ok [] stream
  | count + 1, stream =>
    (transcribe stream ⟨[]⟩).and_then fun obj rest =>
    (transcribe_many count rest).and_then fun objs rest1 => .ok (obj :: objs) rest1

/-- The encoding of a column given as null-or-string. -/
def cell_encoding : Option (List Byte) → List Byte
  | none => nil_marker
  | some str => raw_marker str.length ++ str

/-- The encoding of a row given as its list of null-or-string columns. -/
def columns_encoding (columns : List (Option (List Byte))) : List Byte :=
  array_length_marker columns.length ++ columns.flatMap cell_encoding

/-- A list of columns whose count and string lengths fit the 32-bit length fields. -/
def ColumnsBounded (columns : List (Option (List Byte))) : Prop :=
  columns.length < 2 ^ 32 ∧ ∀ str, some str ∈ columns → str.length < 2 ^ 32

/-! ## The storage of a Packed Buffer -/

/-- Modelled from the spec: the storage behind a Packed Buffer (`packed_value.h` is
not among the sources): the bytes in use, `data()[0 .. size())`, and the bytes
the storage holds past them. -/
structure Storage where
  used : List Byte
  spare : List Byte
deriving DecidableEq, Repr

/-- Modelled from the spec: `clear()` truncates to empty and releases nothing: the
old bytes stay in the storage. -/
def Storage.clear (b : Storage) : Storage := ⟨[], b.used ++ b.spare⟩

/-- Modelled from the spec: `extend(n)` grows the size by exactly `n` bytes; the new
range shows what the storage held there (storage acquired past what was held
is shown as zero bytes) until the caller writes into it. -/
def Storage.extend (b : Storage) (n : Nat) : Storage :=
  ⟨b.used ++ (b.spare.take n ++ List.replicate (n - b.spare.length) 0), b.spare.drop n⟩

/-- The caller writes `data` into the range of the last `extend(data.length)`. -/
def Storage.fill (b : Storage) (data : List Byte) : Storage :=
  ⟨b.used.take (b.used.length - data.length) ++ data, b.spare⟩

/-- A list stream that records its reads: the bytes still to come, and for each
`read` made so far the number of bytes asked for and the bytes returned, or
`none` for the read that ran short. -/
structure LoggedStream where
  pending : List Byte
  reads : List (Nat × Option (List Byte))
deriving DecidableEq, Repr

/-- Modelled from the spec: `read_exact(n)` as `ListStream.read`, with the record. -/
def LoggedStream.read (s : LoggedStream) (bytes : Nat) : Outcome LoggedStream (List Byte) :=
  if bytes ≤ s.pending.length then
    .ok (s.pending.take bytes)
      ⟨s.pending.drop bytes, s.reads ++ [(bytes, some (s.pending.take bytes))]⟩
  else .raise .stream_error ⟨s.pending, s.reads ++ [(bytes, none)]⟩

/-- What one call of `copy_bytes` does to the storage of `obj`: `obj.extend(bytes)`,
then `read_bytes` writes the bytes read into the new range, or throws and
leaves the range as `extend` made it. -/
def Storage.copy_bytes (b : Storage) (rd : Nat × Option (List Byte)) : Storage :=
  match rd.2 with
  | some data => (b.extend rd.1).fill data
  | none => b.extend rd.1

/-- Bytes of the sample value. -/
def sample_value : List Byte :=
  [0x92, 0x81, 0xa1, 0x61, 0x91, 0xc0, 0xdc, 0x00, 0x01, 0xcc, 0x05]

/-! ## Basic facts -/

section Basic
variable {σ : Type}

/-- Masking with 31 keeps the low 5 bits. -/
theorem land_31 (n : Nat) : n &&& 31 = n % 32 := Nat.and_pow_two_sub_one_eq_mod n 5

/-- Masking with 15 keeps the low 4 bits. -/
theorem land_15 (n : Nat) : n &&& 15 = n % 16 := Nat.and_pow_two_sub_one_eq_mod n 4

set_option maxRecDepth 100000 in
/-- The class of a byte that passes one of the range tests of `copy_object`. -/
theorem tag_class_of_tests : ∀ t : Byte,
    (((t = MSGPACK_NIL ∨ t = MSGPACK_FALSE ∨ t = MSGPACK_TRUE) ∨
        (t ≥ MSGPACK_POSITIVE_FIXNUM_MIN ∧ t ≤ MSGPACK_POSITIVE_FIXNUM_MAX) ∨
        (t ≥ MSGPACK_NEGATIVE_FIXNUM_MIN ∧ t ≤ MSGPACK_NEGATIVE_FIXNUM_MAX)) →
      tag_class t = .immediate)
    ∧ ((t ≥ MSGPACK_FIXRAW_MIN ∧ t ≤ MSGPACK_FIXRAW_MAX) → tag_class t = .fixraw)
    ∧ ((t ≥ MSGPACK_FIXARRAY_MIN ∧ t ≤ MSGPACK_FIXARRAY_MAX) → tag_class t = .fixarray)
    ∧ ((t ≥ MSGPACK_FIXMAP_MIN ∧ t ≤ MSGPACK_FIXMAP_MAX) → tag_class t = .fixmap) := by
  decide

set_option maxRecDepth 100000 in
/-- A byte that passes none of the tests of `copy_object` is no defined tag. -/
theorem tag_class_of_no_test : ∀ t : Byte,
    tag_class t = .unknown
    ∨ ((t = MSGPACK_NIL ∨ t = MSGPACK_FALSE ∨ t = MSGPACK_TRUE) ∨
        (t ≥ MSGPACK_POSITIVE_FIXNUM_MIN ∧ t ≤ MSGPACK_POSITIVE_FIXNUM_MAX) ∨
        (t ≥ MSGPACK_NEGATIVE_FIXNUM_MIN ∧ t ≤ MSGPACK_NEGATIVE_FIXNUM_MAX))
    ∨ (t ≥ MSGPACK_FIXRAW_MIN ∧ t ≤ MSGPACK_FIXRAW_MAX)
    ∨ (t ≥ MSGPACK_FIXARRAY_MIN ∧ t ≤ MSGPACK_FIXARRAY_MAX)
    ∨ (t ≥ MSGPACK_FIXMAP_MIN ∧ t ≤ MSGPACK_FIXMAP_MAX)
    ∨ t ∈ [MSGPACK_FLOAT, MSGPACK_DOUBLE, MSGPACK_UINT8, MSGPACK_UINT16, MSGPACK_UINT32,
        MSGPACK_UINT64, MSGPACK_INT8, MSGPACK_INT16, MSGPACK_INT32, MSGPACK_INT64,
        MSGPACK_RAW16, MSGPACK_RAW32, MSGPACK_ARRAY16, MSGPACK_ARRAY32, MSGPACK_MAP16,
        MSGPACK_MAP32] := by
  decide

/-- The branches of `copy_object` are the classes of the wire format. -/
theorem copy_object_succ (read : σ → Nat → Outcome σ (List Byte)) (fuel : Nat)
    (unpacker : σ) (obj : PackedValue) :
    copy_object read (fuel + 1) unpacker obj
      = (copy_bytes read unpacker obj 1).and_then fun r u =>
          after_leader read fuel (r.1.getD 0 0) u r.2 := by
  simp only [copy_object, land_31, land_15]
  congr 1
  funext r u
  generalize r.1.getD 0 0 = leader
  obtain ⟨himm, hraw, harr, hmap⟩ := tag_class_of_tests leader
  by_cases h1 : (leader = MSGPACK_NIL ∨ leader = MSGPACK_FALSE ∨ leader = MSGPACK_TRUE) ∨
      (leader ≥ MSGPACK_POSITIVE_FIXNUM_MIN ∧ leader ≤ MSGPACK_POSITIVE_FIXNUM_MAX) ∨
      (leader ≥ MSGPACK_NEGATIVE_FIXNUM_MIN ∧ leader ≤ MSGPACK_NEGATIVE_FIXNUM_MAX)
  · rw [if_pos h1]; simp only [after_leader, himm h1]
  rw [if_neg h1]
  by_cases h2 : leader ≥ MSGPACK_FIXRAW_MIN ∧ leader ≤ MSGPACK_FIXRAW_MAX
  · rw [if_pos h2]; simp only [after_leader, hraw h2]
  rw [if_neg h2]
  by_cases h3 : leader ≥ MSGPACK_FIXARRAY_MIN ∧ leader ≤ MSGPACK_FIXARRAY_MAX
  · rw [if_pos h3]; simp only [after_leader, harr h3]
  rw [if_neg h3]
  by_cases h4 : leader ≥ MSGPACK_FIXMAP_MIN ∧ leader ≤ MSGPACK_FIXMAP_MAX
  · rw [if_pos h4]; simp only [after_leader, hmap h4]
  rw [if_neg h4]
  by_cases h5 : leader = MSGPACK_FLOAT
  · subst h5; rfl
  rw [if_neg h5]
  by_cases h6 : leader = MSGPACK_DOUBLE
  · subst h6; rfl
  rw [if_neg h6]
  by_cases h7 : leader = MSGPACK_UINT8
  · subst h7; rfl
  rw [if_neg h7]
  by_cases h8 : leader = MSGPACK_UINT16
  · subst h8; rfl
  rw [if_neg h8]
  by_cases h9 : leader = MSGPACK_UINT32
  · subst h9; rfl
  rw [if_neg h9]
  by_cases h10 : leader = MSGPACK_UINT64
  · subst h10; rfl
  rw [if_neg h10]
  by_cases h11 : leader = MSGPACK_INT8
  · subst h11; rfl
  rw [if_neg h11]
  by_cases h12 : leader = MSGPACK_INT16
  · subst h12; rfl
  rw [if_neg h12]
  by_cases h13 : leader = MSGPACK_INT32
  · subst h13; rfl
  rw [if_neg h13]
  by_cases h14 : leader = MSGPACK_INT64
  · subst h14; rfl
  rw [if_neg h14]
  by_cases h15 : leader = MSGPACK_RAW16
  · subst h15; rfl
  rw [if_neg h15]
  by_cases h16 : leader = MSGPACK_RAW32
  · subst h16; rfl
  rw [if_neg h16]
  by_cases h17 : leader = MSGPACK_ARRAY16
  · subst h17; rfl
  rw [if_neg h17]
  by_cases h18 : leader = MSGPACK_ARRAY32
  · subst h18; rfl
  rw [if_neg h18]
  by_cases h19 : leader = MSGPACK_MAP16
  · subst h19; rfl
  rw [if_neg h19]
  by_cases h20 : leader = MSGPACK_MAP32
  · subst h20; rfl
  rw [if_neg h20]
  have hunk : tag_class leader = .unknown := by
    rcases tag_class_of_no_test leader with h | h | h | h | h | h
    · exact h
    · exact absurd h h1
    · exact absurd h h2
    · exact absurd h h3
    · exact absurd h h4
    · simp only [List.mem_cons, h5, h6, h7, h8, h9, h10, h11, h12, h13, h14, h15, h16, h17,
        h18, h19, h20, List.mem_singleton, List.not_mem_nil, or_self] at h
  simp only [after_leader, hunk]

@[simp] theorem and_then_ok {α β : Type} (a : α) (u : σ) (f : α → σ → Outcome σ β) :
    (Outcome.ok a u).and_then f = f a u := rfl

@[simp] theorem and_then_raise {α β : Type} (e : Failure) (u : σ) (f : α → σ → Outcome σ β) :
    (Outcome.raise e u : Outcome σ α).and_then f = .raise e u := rfl

@[simp] theorem and_then_no_fuel {α β : Type} (f : α → σ → Outcome σ β) :
    (Outcome.no_fuel : Outcome σ α).and_then f = .no_fuel := rfl

/-- A sequence that succeeds has a first step that succeeded. -/
theorem and_then_eq_ok {α β : Type} {x : Outcome σ α} {f : α → σ → Outcome σ β} {b : β} {r : σ}
    (h : x.and_then f = .ok b r) : ∃ a u, x = .ok a u ∧ f a u = .ok b r := by
  cases x with
  | ok a u => exact ⟨a, u, rfl, h⟩
  | raise e u => simp at h
  | no_fuel => simp at h

/-- A map of `size` pairs is copied as an array of `2 * size` values. -/
theorem copy_map_eq_copy_array (co : σ → PackedValue → Outcome σ PackedValue) (size : Nat)
    (u : σ) (obj : PackedValue) :
    copy_map co size u obj = copy_array co (2 * size) u obj := by
  induction size generalizing u obj with
  | zero => rfl
  | succ n ih =>
    have h2 : 2 * (n + 1) = (2 * n + 1) + 1 := by ring
    rw [h2]
    simp only [copy_map, copy_array]
    cases co u obj with
    | ok a u1 =>
      simp only [and_then_ok]
      cases co u1 a with
      | ok a2 u2 => simp only [and_then_ok]; exact ih u2 a2
      | raise e u2 => rfl
      | no_fuel => rfl
    | raise e u1 => rfl
    | no_fuel => rfl

/-- The two bytes of a 16-bit length field, decoded. -/
theorem ntohs_at_pair (b0 b1 : Byte) : ntohs_at [b0, b1] = be16 b0 b1 := rfl

/-- The four bytes of a 32-bit length field, decoded. -/
theorem ntohl_at_quad (b0 b1 b2 b3 : Byte) : ntohl_at [b0, b1, b2, b3] = be32 b0 b1 b2 b3 := rfl

/-- Copying the bytes `d` that the stream holds next. -/
theorem copy_bytes_of_readsFrom {read : σ → Nat → Outcome σ (List Byte)}
    {R : σ → List Byte → Prop} (hsim : ReadsFrom read R) (u : σ) (obj : PackedValue)
    (d rest : List Byte) (hR : R u (d ++ rest)) :
    ∃ u1, copy_bytes read u obj d.length = .ok (d, ⟨obj.data ++ d⟩) u1 ∧ R u1 rest := by
  obtain ⟨u1, h1, hR1⟩ := hsim u (d ++ rest) d.length hR (by simp)
  refine ⟨u1, ?_, ?_⟩
  · simp [copy_bytes, h1, PackedValue.extend]
  · simpa using hR1

/-- Two well-formed sequences, one after the other. -/
theorem WellFormedSeq.append {m n : Nat} {a b : List Byte} (ha : WellFormedSeq m a)
    (hb : WellFormedSeq n b) : WellFormedSeq (n + m) (a ++ b) := by
  induction ha with
  | nil => simpa using hb
  | immediate t k rest ht _ ih => exact .immediate t _ _ ht ih
  | fixed t k payload j rest ht hp _ ih =>
    simpa using WellFormedSeq.fixed t k payload _ _ ht hp ih
  | fixraw t payload j rest ht hp _ ih =>
    simpa using WellFormedSeq.fixraw t payload _ _ ht hp ih
  | fixarray t body j rest ht hb1 _ _ ih =>
    simpa using WellFormedSeq.fixarray t body _ _ ht hb1 ih
  | fixmap t body j rest ht hb1 _ _ ih =>
    simpa using WellFormedSeq.fixmap t body _ _ ht hb1 ih
  | raw16 t b0 b1 payload j rest ht hp _ ih =>
    simpa using WellFormedSeq.raw16 t b0 b1 payload _ _ ht hp ih
  | raw32 t b0 b1 b2 b3 payload j rest ht hp _ ih =>
    simpa using WellFormedSeq.raw32 t b0 b1 b2 b3 payload _ _ ht hp ih
  | array16 t b0 b1 body j rest ht hb1 _ _ ih =>
    simpa using WellFormedSeq.array16 t b0 b1 body _ _ ht hb1 ih
  | array32 t b0 b1 b2 b3 body j rest ht hb1 _ _ ih =>
    simpa using WellFormedSeq.array32 t b0 b1 b2 b3 body _ _ ht hb1 ih
  | map16 t b0 b1 body j rest ht hb1 _ _ ih =>
    simpa using WellFormedSeq.map16 t b0 b1 body _ _ ht hb1 ih
  | map32 t b0 b1 b2 b3 body j rest ht hb1 _ _ ih =>
    simpa using WellFormedSeq.map32 t b0 b1 b2 b3 body _ _ ht hb1 ih

end Basic

/-! ## Well-formed input is copied whole -/

section Success
variable {σ : Type} {read : σ → Nat → Outcome σ (List Byte)} {R : σ → List Byte → Prop}

/-- Reading the leader `t` that the stream holds next. -/
theorem copy_object_of_leader (hsim : ReadsFrom read R) (fuel : Nat) (u : σ)
    (obj : PackedValue) (t : Byte) (rest : List Byte) (hR : R u (t :: rest)) :
    ∃ u1, copy_object read (fuel + 1) u obj = after_leader read fuel t u1 ⟨obj.data ++ [t]⟩
      ∧ R u1 rest := by
  obtain ⟨u1, h1, hR1⟩ := copy_bytes_of_readsFrom hsim u obj [t] rest hR
  refine ⟨u1, ?_, hR1⟩
  rw [copy_object_succ]
  simp only [List.length_singleton] at h1
  rw [h1]
  rfl

/-- One more turn of the loop of `copy_array` after a successful `copy_object`. -/
theorem copy_array_succ_of_ok (co : σ → PackedValue → Outcome σ PackedValue) (n : Nat)
    {u u1 : σ} {obj obj1 : PackedValue} (h : co u obj = .ok obj1 u1) :
    copy_array co (n + 1) u obj = copy_array co n u1 obj1 := by
  simp [copy_array, h]

/-- A payload of known length after the leader. -/
theorem discard_ptr_copy_bytes (hsim : ReadsFrom read R) (u : σ) (obj : PackedValue)
    (d rest : List Byte) (k : Nat) (hk : d.length = k) (hR : R u (d ++ rest)) :
    ∃ u1, discard_ptr (copy_bytes read u obj k) = .ok ⟨obj.data ++ d⟩ u1 ∧ R u1 rest := by
  subst hk
  obtain ⟨u1, h1, hR1⟩ := copy_bytes_of_readsFrom hsim u obj d rest hR
  exact ⟨u1, by simp [discard_ptr, h1], hR1⟩

/-- The walker copies `n` well-formed values in a row, with any budget above
their total length, and leaves the stream right after them. -/
theorem copy_array_of_wellFormedSeq (hsim : ReadsFrom read R) {n : Nat} {bs : List Byte}
    (h : WellFormedSeq n bs) :
    ∀ (fuel : Nat), bs.length < fuel → ∀ (u : σ) (rest : List Byte) (obj : PackedValue),
      R u (bs ++ rest) →
      ∃ u1, copy_array (copy_object read fuel) n u obj = .ok ⟨obj.data ++ bs⟩ u1 ∧ R u1 rest := by
  induction h with
  | nil =>
    intro fuel _ u rest obj hR
    exact ⟨u, by simp [copy_array], by simpa using hR⟩
  | immediate t n rest0 ht _ ih =>
    intro fuel hf u rest obj hR
    obtain ⟨f, rfl⟩ : ∃ f, fuel = f + 1 := ⟨fuel - 1, by omega⟩
    simp only [List.length_cons] at hf
    obtain ⟨u1, h1, hR1⟩ :=
      copy_object_of_leader hsim f u obj t (rest0 ++ rest) (by simpa using hR)
    simp only [after_leader, ht] at h1
    obtain ⟨u2, h2, hR2⟩ := ih (f + 1) (by omega) u1 rest ⟨obj.data ++ [t]⟩ hR1
    refine ⟨u2, ?_, hR2⟩
    rw [copy_array_succ_of_ok _ _ h1, h2]
    simp
  | fixed t k payload n rest0 ht hp _ ih =>
    intro fuel hf u rest obj hR
    obtain ⟨f, rfl⟩ : ∃ f, fuel = f + 1 := ⟨fuel - 1, by omega⟩
    simp only [List.length_cons, List.length_append] at hf
    obtain ⟨u1, h1, hR1⟩ :=
      copy_object_of_leader hsim f u obj t (payload ++ (rest0 ++ rest)) (by simpa using hR)
    simp only [after_leader, ht] at h1
    obtain ⟨u2, h2, hR2⟩ := discard_ptr_copy_bytes hsim u1 ⟨obj.data ++ [t]⟩ payload
      (rest0 ++ rest) k hp hR1
    rw [h2] at h1
    obtain ⟨u3, h3, hR3⟩ := ih (f + 1) (by omega) u2 rest _ hR2
    refine ⟨u3, ?_, hR3⟩
    rw [copy_array_succ_of_ok _ _ h1, h3]
    simp
  | fixraw t payload n rest0 ht hp _ ih =>
    intro fuel hf u rest obj hR
    obtain ⟨f, rfl⟩ : ∃ f, fuel = f + 1 := ⟨fuel - 1, by omega⟩
    simp only [List.length_cons, List.length_append] at hf
    obtain ⟨u1, h1, hR1⟩ :=
      copy_object_of_leader hsim f u obj t (payload ++ (rest0 ++ rest)) (by simpa using hR)
    simp only [after_leader, ht] at h1
    obtain ⟨u2, h2, hR2⟩ := discard_ptr_copy_bytes hsim u1 ⟨obj.data ++ [t]⟩ payload
      (rest0 ++ rest) _ hp hR1
    rw [h2] at h1
    obtain ⟨u3, h3, hR3⟩ := ih (f + 1) (by omega) u2 rest _ hR2
    refine ⟨u3, ?_, hR3⟩
    rw [copy_array_succ_of_ok _ _ h1, h3]
    simp
  | fixarray t body n rest0 ht _ _ ihb ih =>
    intro fuel hf u rest obj hR
    obtain ⟨f, rfl⟩ : ∃ f, fuel = f + 1 := ⟨fuel - 1, by omega⟩
    simp only [List.length_cons, List.length_append] at hf
    obtain ⟨u1, h1, hR1⟩ :=
      copy_object_of_leader hsim f u obj t (body ++ (rest0 ++ rest)) (by simpa using hR)
    simp only [after_leader, ht] at h1
    obtain ⟨u2, h2, hR2⟩ := ihb f (by omega) u1 (rest0 ++ rest) ⟨obj.data ++ [t]⟩ hR1
    rw [h2] at h1
    obtain ⟨u3, h3, hR3⟩ := ih (f + 1) (by omega) u2 rest _ hR2
    refine ⟨u3, ?_, hR3⟩
    rw [copy_array_succ_of_ok _ _ h1, h3]
    simp
  | fixmap t body n rest0 ht _ _ ihb ih =>
    intro fuel hf u rest obj hR
    obtain ⟨f, rfl⟩ : ∃ f, fuel = f + 1 := ⟨fuel - 1, by omega⟩
    simp only [List.length_cons, List.length_append] at hf
    obtain ⟨u1, h1, hR1⟩ :=
      copy_object_of_leader hsim f u obj t (body ++ (rest0 ++ rest)) (by simpa using hR)
    simp only [after_leader, ht, copy_map_eq_copy_array] at h1
    obtain ⟨u2, h2, hR2⟩ := ihb f (by omega) u1 (rest0 ++ rest) ⟨obj.data ++ [t]⟩ hR1
    rw [h2] at h1
    obtain ⟨u3, h3, hR3⟩ := ih (f + 1) (by omega) u2 rest _ hR2
    refine ⟨u3, ?_, hR3⟩
    rw [copy_array_succ_of_ok _ _ h1, h3]
    simp
  | raw16 t b0 b1 payload n rest0 ht hp _ ih =>
    intro fuel hf u rest obj hR
    obtain ⟨f, rfl⟩ : ∃ f, fuel = f + 1 := ⟨fuel - 1, by omega⟩
    simp only [List.length_cons, List.length_append] at hf
    obtain ⟨u1, h1, hR1⟩ := copy_object_of_leader hsim f u obj t
      ([b0, b1] ++ (payload ++ (rest0 ++ rest))) (by simpa using hR)
    simp only [after_leader, ht] at h1
    obtain ⟨u2, h2, hR2⟩ := copy_bytes_of_readsFrom hsim u1 ⟨obj.data ++ [t]⟩ [b0, b1] _ hR1
    simp only [List.length_cons, List.length_nil] at h2
    rw [h2, and_then_ok, ntohs_at_pair] at h1
    obtain ⟨u3, h3, hR3⟩ := discard_ptr_copy_bytes hsim u2 ⟨obj.data ++ [t] ++ [b0, b1]⟩ payload
      (rest0 ++ rest) _ hp hR2
    rw [h3] at h1
    obtain ⟨u4, h4, hR4⟩ := ih (f + 1) (by omega) u3 rest _ hR3
    refine ⟨u4, ?_, hR4⟩
    rw [copy_array_succ_of_ok _ _ h1, h4]
    simp
  | raw32 t b0 b1 b2 b3 payload n rest0 ht hp _ ih =>
    intro fuel hf u rest obj hR
    obtain ⟨f, rfl⟩ : ∃ f, fuel = f + 1 := ⟨fuel - 1, by omega⟩
    simp only [List.length_cons, List.length_append] at hf
    obtain ⟨u1, h1, hR1⟩ := copy_object_of_leader hsim f u obj t
      ([b0, b1, b2, b3] ++ (payload ++ (rest0 ++ rest))) (by simpa using hR)
    simp only [after_leader, ht] at h1
    obtain ⟨u2, h2, hR2⟩ :=
      copy_bytes_of_readsFrom hsim u1 ⟨obj.data ++ [t]⟩ [b0, b1, b2, b3] _ hR1
    simp only [List.length_cons, List.length_nil] at h2
    rw [h2, and_then_ok, ntohl_at_quad] at h1
    obtain ⟨u3, h3, hR3⟩ := discard_ptr_copy_bytes hsim u2
      ⟨obj.data ++ [t] ++ [b0, b1, b2, b3]⟩ payload (rest0 ++ rest) _ hp hR2
    rw [h3] at h1
    obtain ⟨u4, h4, hR4⟩ := ih (f + 1) (by omega) u3 rest _ hR3
    refine ⟨u4, ?_, hR4⟩
    rw [copy_array_succ_of_ok _ _ h1, h4]
    simp
  | array16 t b0 b1 body n rest0 ht _ _ ihb ih =>
    intro fuel hf u rest obj hR
    obtain ⟨f, rfl⟩ : ∃ f, fuel = f + 1 := ⟨fuel - 1, by omega⟩
    simp only [List.length_cons, List.length_append] at hf
    obtain ⟨u1, h1, hR1⟩ := copy_object_of_leader hsim f u obj t
      ([b0, b1] ++ (body ++ (rest0 ++ rest))) (by simpa using hR)
    simp only [after_leader, ht] at h1
    obtain ⟨u2, h2, hR2⟩ := copy_bytes_of_readsFrom hsim u1 ⟨obj.data ++ [t]⟩ [b0, b1] _ hR1
    simp only [List.length_cons, List.length_nil] at h2
    rw [h2, and_then_ok, ntohs_at_pair] at h1
    obtain ⟨u3, h3, hR3⟩ := ihb f (by omega) u2 (rest0 ++ rest)
      ⟨obj.data ++ [t] ++ [b0, b1]⟩ hR2
    rw [h3] at h1
    obtain ⟨u4, h4, hR4⟩ := ih (f + 1) (by omega) u3 rest _ hR3
    refine ⟨u4, ?_, hR4⟩
    rw [copy_array_succ_of_ok _ _ h1, h4]
    simp
  | array32 t b0 b1 b2 b3 body n rest0 ht _ _ ihb ih =>
    intro fuel hf u rest obj hR
    obtain ⟨f, rfl⟩ : ∃ f, fuel = f + 1 := ⟨fuel - 1, by omega⟩
    simp only [List.length_cons, List.length_append] at hf
    obtain ⟨u1, h1, hR1⟩ := copy_object_of_leader hsim f u obj t
      ([b0, b1, b2, b3] ++ (body ++ (rest0 ++ rest))) (by simpa using hR)
    simp only [after_leader, ht] at h1
    obtain ⟨u2, h2, hR2⟩ :=
      copy_bytes_of_readsFrom hsim u1 ⟨obj.data ++ [t]⟩ [b0, b1, b2, b3] _ hR1
    simp only [List.length_cons, List.length_nil] at h2
    rw [h2, and_then_ok, ntohl_at_quad] at h1
    obtain ⟨u3, h3, hR3⟩ := ihb f (by omega) u2 (rest0 ++ rest)
      ⟨obj.data ++ [t] ++ [b0, b1, b2, b3]⟩ hR2
    rw [h3] at h1
    obtain ⟨u4, h4, hR4⟩ := ih (f + 1) (by omega) u3 rest _ hR3
    refine ⟨u4, ?_, hR4⟩
    rw [copy_array_succ_of_ok _ _ h1, h4]
    simp
  | map16 t b0 b1 body n rest0 ht _ _ ihb ih =>
    intro fuel hf u rest obj hR
    obtain ⟨f, rfl⟩ : ∃ f, fuel = f + 1 := ⟨fuel - 1, by omega⟩
    simp only [List.length_cons, List.length_append] at hf
    obtain ⟨u1, h1, hR1⟩ := copy_object_of_leader hsim f u obj t
      ([b0, b1] ++ (body ++ (rest0 ++ rest))) (by simpa using hR)
    simp only [after_leader, ht, copy_map_eq_copy_array] at h1
    obtain ⟨u2, h2, hR2⟩ := copy_bytes_of_readsFrom hsim u1 ⟨obj.data ++ [t]⟩ [b0, b1] _ hR1
    simp only [List.length_cons, List.length_nil] at h2
    rw [h2, and_then_ok, ntohs_at_pair] at h1
    obtain ⟨u3, h3, hR3⟩ := ihb f (by omega) u2 (rest0 ++ rest)
      ⟨obj.data ++ [t] ++ [b0, b1]⟩ hR2
    rw [h3] at h1
    obtain ⟨u4, h4, hR4⟩ := ih (f + 1) (by omega) u3 rest _ hR3
    refine ⟨u4, ?_, hR4⟩
    rw [copy_array_succ_of_ok _ _ h1, h4]
    simp
  | map32 t b0 b1 b2 b3 body n rest0 ht _ _ ihb ih =>
    intro fuel hf u rest obj hR
    obtain ⟨f, rfl⟩ : ∃ f, fuel = f + 1 := ⟨fuel - 1, by omega⟩
    simp only [List.length_cons, List.length_append] at hf
    obtain ⟨u1, h1, hR1⟩ := copy_object_of_leader hsim f u obj t
      ([b0, b1, b2, b3] ++ (body ++ (rest0 ++ rest))) (by simpa using hR)
    simp only [after_leader, ht, copy_map_eq_copy_array] at h1
    obtain ⟨u2, h2, hR2⟩ :=
      copy_bytes_of_readsFrom hsim u1 ⟨obj.data ++ [t]⟩ [b0, b1, b2, b3] _ hR1
    simp only [List.length_cons, List.length_nil] at h2
    rw [h2, and_then_ok, ntohl_at_quad] at h1
    obtain ⟨u3, h3, hR3⟩ := ihb f (by omega) u2 (rest0 ++ rest)
      ⟨obj.data ++ [t] ++ [b0, b1, b2, b3]⟩ hR2
    rw [h3] at h1
    obtain ⟨u4, h4, hR4⟩ := ih (f + 1) (by omega) u3 rest _ hR3
    refine ⟨u4, ?_, hR4⟩
    rw [copy_array_succ_of_ok _ _ h1, h4]
    simp

end Success

/-! ## The two streams -/

/-- The list stream hands out the bytes it holds. -/
theorem listStream_readsFrom : ReadsFrom ListStream.read (fun u l => u = l) := by
  intro u l n hR hn
  subst hR
  exact ⟨u.drop n, by simp [ListStream.read, hn], rfl⟩

/-- A `VectorReadStream` hands out the bytes of its value while reads stay inside it. -/
theorem vectorReadStream_readsFrom (v : PackedValue) :
    ReadsFrom VectorReadStream.read (VectorReadStream.Holds v) := by
  intro u l n hR hn
  obtain ⟨hv, hpos, hl⟩ := hR
  subst hl hv
  simp only [List.length_drop] at hn
  simp only [PackedValue.size] at hpos
  have hin : u.pos + n ≤ u.value.size := by simp only [PackedValue.size]; omega
  refine ⟨⟨u.value, u.pos + n⟩, ?_, rfl, hin, ?_⟩
  · simp [VectorReadStream.read, hin]
  · simp [List.drop_drop, Nat.add_comm]

/-- A successful read of the list stream returns the first `n` bytes. -/
theorem ListStream.read_eq_ok {s d r : List Byte} {n : Nat}
    (h : ListStream.read s n = .ok d r) : s = d ++ r ∧ d.length = n := by
  unfold ListStream.read at h
  split at h
  · rename_i hn
    simp only [Outcome.ok.injEq] at h
    obtain ⟨rfl, rfl⟩ := h
    exact ⟨(List.take_append_drop n s).symm, by simp [hn]⟩
  · simp at h

/-- A failed read of the list stream is a short read, and leaves the stream as it was. -/
theorem ListStream.read_eq_raise {s r : List Byte} {n : Nat} {e : Failure}
    (h : ListStream.read s n = .raise e r) : e = .stream_error ∧ r = s ∧ s.length < n := by
  unfold ListStream.read at h
  split at h
  · simp at h
  · rename_i hn
    simp only [Outcome.raise.injEq] at h
    exact ⟨h.1.symm, h.2.symm, by omega⟩

/-- The list stream never exhausts the budget. -/
theorem ListStream.read_ne_no_fuel (s : List Byte) (n : Nat) :
    ListStream.read s n ≠ .no_fuel := by
  unfold ListStream.read
  split <;> simp

/-- A short read. -/
theorem ListStream.read_short {s : List Byte} {n : Nat} (h : s.length < n) :
    ListStream.read s n = .raise .stream_error s := by
  simp [ListStream.read, Nat.not_le.mpr h]

/-! ## What a successful transcription has consumed -/

/-- A successful `copy_bytes` on the list stream. -/
theorem copy_bytes_list_ok {s r d : List Byte} {obj obj1 : PackedValue} {n : Nat}
    (h : copy_bytes ListStream.read s obj n = .ok (d, obj1) r) :
    s = d ++ r ∧ d.length = n ∧ obj1.data = obj.data ++ d := by
  unfold copy_bytes at h
  obtain ⟨a, u, h1, h2⟩ := and_then_eq_ok h
  simp only [Outcome.ok.injEq, Prod.mk.injEq] at h2
  obtain ⟨⟨rfl, rfl⟩, rfl⟩ := h2
  obtain ⟨hs, hl⟩ := ListStream.read_eq_ok h1
  exact ⟨hs, hl, rfl⟩

/-- A successful payload copy on the list stream. -/
theorem discard_ptr_list_ok {s r : List Byte} {obj obj1 : PackedValue} {n : Nat}
    (h : discard_ptr (copy_bytes ListStream.read s obj n) = .ok obj1 r) :
    ∃ d, s = d ++ r ∧ d.length = n ∧ obj1.data = obj.data ++ d := by
  unfold discard_ptr at h
  obtain ⟨⟨d, o⟩, u, h1, h2⟩ := and_then_eq_ok h
  simp only [Outcome.ok.injEq] at h2
  obtain ⟨rfl, rfl⟩ := h2
  exact ⟨d, copy_bytes_list_ok h1⟩

/-- A list of length two. -/
theorem list_length_two {d : List Byte} (h : d.length = 2) : ∃ b0 b1, d = [b0, b1] := by
  match d, h with
  | [b0, b1], _ => exact ⟨b0, b1, rfl⟩

/-- A list of length four. -/
theorem list_length_four {d : List Byte} (h : d.length = 4) :
    ∃ b0 b1 b2 b3, d = [b0, b1, b2, b3] := by
  match d, h with
  | [b0, b1, b2, b3], _ => exact ⟨b0, b1, b2, b3, rfl⟩

/-- A successful loop of `copy_array` has consumed `n` values if each call did one. -/
theorem copy_array_sound (co : List Byte → PackedValue → Outcome (List Byte) PackedValue)
    (hco : ∀ s obj obj1 r, co s obj = .ok obj1 r → Copied 1 s obj obj1 r) :
    ∀ (n : Nat) (s : List Byte) (obj obj1 : PackedValue) (r : List Byte),
      copy_array co n s obj = .ok obj1 r → Copied n s obj obj1 r := by
  intro n
  induction n with
  | zero =>
    intro s obj obj1 r h
    simp only [copy_array, Outcome.ok.injEq] at h
    obtain ⟨rfl, rfl⟩ := h
    exact ⟨[], .nil, rfl, by simp⟩
  | succ n ih =>
    intro s obj obj1 r h
    simp only [copy_array] at h
    obtain ⟨o2, u2, h1, h2⟩ := and_then_eq_ok h
    obtain ⟨c1, hw1, hs1, ho1⟩ := hco _ _ _ _ h1
    obtain ⟨c2, hw2, hs2, ho2⟩ := ih _ _ _ _ h2
    refine ⟨c1 ++ c2, hw1.append hw2, ?_, ?_⟩
    · rw [hs1, hs2, List.append_assoc]
    · rw [ho2, ho1, List.append_assoc]

/-- A successful `copy_object` on the list stream has consumed one complete value
and appended exactly its bytes to the buffer. -/
theorem copy_object_sound (fuel : Nat) :
    ∀ (s : List Byte) (obj obj1 : PackedValue) (r : List Byte),
      copy_object ListStream.read fuel s obj = .ok obj1 r → Copied 1 s obj obj1 r := by
  induction fuel with
  | zero => intro s obj obj1 r h; simp [copy_object] at h
  | succ f ih =>
    intro s obj obj1 r h
    rw [copy_object_succ] at h
    obtain ⟨⟨d, o1⟩, u1, h1, h2⟩ := and_then_eq_ok h
    obtain ⟨hs, hd, ho⟩ := copy_bytes_list_ok h1
    obtain ⟨t, rfl⟩ : ∃ t, d = [t] := List.length_eq_one.mp hd
    simp only [List.getD_cons_zero] at h2
    have harr := copy_array_sound (copy_object ListStream.read f) ih
    cases hc : tag_class t with
    | immediate =>
      simp only [after_leader, hc, Outcome.ok.injEq] at h2
      obtain ⟨rfl, rfl⟩ := h2
      exact ⟨[t], .immediate t 0 [] hc .nil, hs, ho⟩
    | fixed k =>
      simp only [after_leader, hc] at h2
      obtain ⟨p, hs2, hp, ho2⟩ := discard_ptr_list_ok h2
      refine ⟨t :: (p ++ []), .fixed t k p 0 [] hc hp .nil, ?_, ?_⟩
      · rw [hs, hs2]; simp
      · rw [ho2, ho]; simp
    | fixraw =>
      simp only [after_leader, hc] at h2
      obtain ⟨p, hs2, hp, ho2⟩ := discard_ptr_list_ok h2
      refine ⟨t :: (p ++ []), .fixraw t p 0 [] hc hp .nil, ?_, ?_⟩
      · rw [hs, hs2]; simp
      · rw [ho2, ho]; simp
    | fixarray =>
      simp only [after_leader, hc] at h2
      obtain ⟨c, hw, hs2, ho2⟩ := harr _ _ _ _ _ h2
      refine ⟨t :: (c ++ []), .fixarray t c 0 [] hc hw .nil, ?_, ?_⟩
      · rw [hs, hs2]; simp
      · rw [ho2, ho]; simp
    | fixmap =>
      simp only [after_leader, hc, copy_map_eq_copy_array] at h2
      obtain ⟨c, hw, hs2, ho2⟩ := harr _ _ _ _ _ h2
      refine ⟨t :: (c ++ []), .fixmap t c 0 [] hc hw .nil, ?_, ?_⟩
      · rw [hs, hs2]; simp
      · rw [ho2, ho]; simp
    | raw16 =>
      simp only [after_leader, hc] at h2
      obtain ⟨⟨l, o2⟩, u2, h3, h4⟩ := and_then_eq_ok h2
      obtain ⟨hs3, hl, ho3⟩ := copy_bytes_list_ok h3
      obtain ⟨b0, b1, rfl⟩ := list_length_two hl
      obtain ⟨p, hs4, hp, ho4⟩ := discard_ptr_list_ok h4
      refine ⟨t :: b0 :: b1 :: (p ++ []), .raw16 t b0 b1 p 0 [] hc hp .nil, ?_, ?_⟩
      · rw [hs, hs3, hs4]; simp
      · rw [ho4, ho3, ho]; simp
    | raw32 =>
      simp only [after_leader, hc] at h2
      obtain ⟨⟨l, o2⟩, u2, h3, h4⟩ := and_then_eq_ok h2
      obtain ⟨hs3, hl, ho3⟩ := copy_bytes_list_ok h3
      obtain ⟨b0, b1, b2, b3, rfl⟩ := list_length_four hl
      obtain ⟨p, hs4, hp, ho4⟩ := discard_ptr_list_ok h4
      refine ⟨t :: b0 :: b1 :: b2 :: b3 :: (p ++ []),
        .raw32 t b0 b1 b2 b3 p 0 [] hc hp .nil, ?_, ?_⟩
      · rw [hs, hs3, hs4]; simp
      · rw [ho4, ho3, ho]; simp
    | array16 =>
      simp only [after_leader, hc] at h2
      obtain ⟨⟨l, o2⟩, u2, h3, h4⟩ := and_then_eq_ok h2
      obtain ⟨hs3, hl, ho3⟩ := copy_bytes_list_ok h3
      obtain ⟨b0, b1, rfl⟩ := list_length_two hl
      obtain ⟨c, hw, hs4, ho4⟩ := harr _ _ _ _ _ h4
      refine ⟨t :: b0 :: b1 :: (c ++ []), .array16 t b0 b1 c 0 [] hc hw .nil, ?_, ?_⟩
      · rw [hs, hs3, hs4]; simp
      · rw [ho4, ho3, ho]; simp
    | array32 =>
      simp only [after_leader, hc] at h2
      obtain ⟨⟨l, o2⟩, u2, h3, h4⟩ := and_then_eq_ok h2
      obtain ⟨hs3, hl, ho3⟩ := copy_bytes_list_ok h3
      obtain ⟨b0, b1, b2, b3, rfl⟩ := list_length_four hl
      obtain ⟨c, hw, hs4, ho4⟩ := harr _ _ _ _ _ h4
      refine ⟨t :: b0 :: b1 :: b2 :: b3 :: (c ++ []),
        .array32 t b0 b1 b2 b3 c 0 [] hc hw .nil, ?_, ?_⟩
      · rw [hs, hs3, hs4]; simp
      · rw [ho4, ho3, ho]; simp
    | map16 =>
      simp only [after_leader, hc, copy_map_eq_copy_array] at h2
      obtain ⟨⟨l, o2⟩, u2, h3, h4⟩ := and_then_eq_ok h2
      obtain ⟨hs3, hl, ho3⟩ := copy_bytes_list_ok h3
      obtain ⟨b0, b1, rfl⟩ := list_length_two hl
      obtain ⟨c, hw, hs4, ho4⟩ := harr _ _ _ _ _ h4
      refine ⟨t :: b0 :: b1 :: (c ++ []), .map16 t b0 b1 c 0 [] hc hw .nil, ?_, ?_⟩
      · rw [hs, hs3, hs4]; simp
      · rw [ho4, ho3, ho]; simp
    | map32 =>
      simp only [after_leader, hc, copy_map_eq_copy_array] at h2
      obtain ⟨⟨l, o2⟩, u2, h3, h4⟩ := and_then_eq_ok h2
      obtain ⟨hs3, hl, ho3⟩ := copy_bytes_list_ok h3
      obtain ⟨b0, b1, b2, b3, rfl⟩ := list_length_four hl
      obtain ⟨c, hw, hs4, ho4⟩ := harr _ _ _ _ _ h4
      refine ⟨t :: b0 :: b1 :: b2 :: b3 :: (c ++ []),
        .map32 t b0 b1 b2 b3 c 0 [] hc hw .nil, ?_, ?_⟩
      · rw [hs, hs3, hs4]; simp
      · rw [ho4, ho3, ho]; simp
    | unknown =>
      simp [after_leader, hc] at h2

/-! ## Truncated input -/

/-- A proper prefix of `d ++ tl` is shorter than `d`, or is `d` followed by a
proper prefix of `tl`. -/
theorem proper_prefix_append {p d tl : List Byte} (hp : p <+: d ++ tl) (hne : p ≠ d ++ tl) :
    (p <+: d ∧ p.length < d.length) ∨ ∃ q, p = d ++ q ∧ q <+: tl ∧ q ≠ tl := by
  by_cases hlen : p.length < d.length
  · exact .inl ⟨List.prefix_of_prefix_length_le hp (List.prefix_append d tl) (by omega), hlen⟩
  · right
    have hd : d <+: p :=
      List.prefix_of_prefix_length_le (List.prefix_append d tl) hp (by omega)
    obtain ⟨q, rfl⟩ := hd
    refine ⟨q, rfl, (List.prefix_append_right_inj d).mp hp, ?_⟩
    rintro rfl
    exact hne rfl

/-- The leader of a non-empty list stream. -/
theorem copy_object_list_cons (f : Nat) (t : Byte) (q : List Byte) (obj : PackedValue) :
    copy_object ListStream.read (f + 1) (t :: q) obj
      = after_leader ListStream.read f t q ⟨obj.data ++ [t]⟩ := by
  obtain ⟨u1, h1, rfl⟩ := copy_object_of_leader listStream_readsFrom f (t :: q) obj t q rfl
  exact h1

/-- No leader: the empty list stream reports a short read. -/
theorem copy_object_list_nil (f : Nat) (obj : PackedValue) :
    copy_object ListStream.read (f + 1) [] obj = .raise .stream_error [] := by
  rw [copy_object_succ]
  rfl

/-- Asking the list stream for more than it holds. -/
theorem copy_bytes_list_short {p : List Byte} {k : Nat} (h : p.length < k) (obj : PackedValue) :
    copy_bytes ListStream.read p obj k = .raise .stream_error p := by
  simp [copy_bytes, ListStream.read_short h]

/-- Taking the next bytes `d` of the list stream. -/
theorem copy_bytes_list_append (d q : List Byte) (obj : PackedValue) :
    copy_bytes ListStream.read (d ++ q) obj d.length = .ok (d, ⟨obj.data ++ d⟩) q := by
  obtain ⟨u1, h1, rfl⟩ := copy_bytes_of_readsFrom listStream_readsFrom (d ++ q) obj d q rfl
  exact h1

/-- One well-formed value is copied by one call of `copy_object`. -/
theorem copy_object_of_wellFormed {σ : Type} {read : σ → Nat → Outcome σ (List Byte)}
    {R : σ → List Byte → Prop} (hsim : ReadsFrom read R) {v : List Byte} (hv : WellFormed v)
    (fuel : Nat) (hf : v.length < fuel) (u : σ) (rest : List Byte) (obj : PackedValue)
    (hR : R u (v ++ rest)) :
    ∃ u1, copy_object read fuel u obj = .ok ⟨obj.data ++ v⟩ u1 ∧ R u1 rest := by
  obtain ⟨u1, h1, hR1⟩ := copy_array_of_wellFormedSeq hsim hv fuel hf u rest obj hR
  refine ⟨u1, ?_, hR1⟩
  simp only [copy_array] at h1
  cases hco : copy_object read fuel u obj with
  | ok a u2 => rw [hco] at h1; simpa using h1
  | raise e u2 => rw [hco] at h1; simp at h1
  | no_fuel => rw [hco] at h1; simp at h1

/-- A value followed by `n` more: the cut falls in the value or after it. -/
theorem truncated_step {v rest0 : List Byte} {n : Nat} (hv : WellFormed v)
    (hone : TruncatedFailsOne v) (ih : TruncatedFails n rest0) :
    TruncatedFails (n + 1) (v ++ rest0) := by
  intro p hp hne fuel hf obj
  rcases proper_prefix_append hp hne with ⟨hpv, hlen⟩ | ⟨q, rfl, hq, hqne⟩
  · obtain ⟨r, hr⟩ := hone p hpv (by rintro rfl; omega) fuel hf obj
    exact ⟨r, by simp [copy_array, hr]⟩
  · simp only [List.length_append] at hf
    obtain ⟨u1, h1, hu⟩ := copy_object_of_wellFormed listStream_readsFrom hv fuel
      (by omega) (v ++ q) q obj rfl
    rw [hu] at h1
    obtain ⟨r, hr⟩ := ih q hq hqne fuel (by omega) ⟨obj.data ++ v⟩
    exact ⟨r, by rw [copy_array_succ_of_ok _ _ h1, hr]⟩

/-- A value cut inside: the leader is missing, or the cut is after the leader. -/
theorem truncated_one_of_leader {t : Byte} {x : List Byte}
    (h : ∀ q : List Byte, q <+: x → q ≠ x → ∀ f : Nat, q.length < f → ∀ obj : PackedValue,
      ∃ r, after_leader ListStream.read f t q obj = .raise .stream_error r) :
    TruncatedFailsOne (t :: x) := by
  intro p hp hne fuel hf obj
  obtain ⟨f, rfl⟩ : ∃ f, fuel = f + 1 := ⟨fuel - 1, by omega⟩
  cases p with
  | nil => exact ⟨[], copy_object_list_nil f obj⟩
  | cons a q =>
    obtain ⟨rfl, hq⟩ : a = t ∧ q <+: x := by
      obtain ⟨w, hw⟩ := hp
      simp only [List.cons_append, List.cons.injEq] at hw
      exact ⟨hw.1, ⟨w, hw.2⟩⟩
    simp only [List.length_cons] at hf
    rw [copy_object_list_cons]
    exact h q hq (fun hqx => hne (by rw [hqx])) f (by omega) _

/-- A payload of `k` bytes cut short. -/
theorem discard_ptr_list_short {q : List Byte} {k : Nat} (h : q.length < k) (obj : PackedValue) :
    discard_ptr (copy_bytes ListStream.read q obj k) = .raise .stream_error q := by
  simp [discard_ptr, copy_bytes_list_short h]

/-- A proper prefix is shorter. -/
theorem proper_prefix_length {q x : List Byte} (hq : q <+: x) (hne : q ≠ x) :
    q.length < x.length := by
  rcases Nat.lt_or_ge q.length x.length with h | h
  · exact h
  · exact absurd (hq.eq_of_length_le h) hne

/-- A truncated encoded value, or a truncated run of encoded values, is never
accepted: copying it from the list stream ends in the short-read error. -/
theorem truncated_fails {n : Nat} {bs : List Byte} (h : WellFormedSeq n bs) :
    TruncatedFails n bs := by
  induction h with
  | nil =>
    intro p hp hne
    exact absurd (List.prefix_nil.mp hp) hne
  | immediate t n rest0 ht hr ih =>
    refine truncated_step (v := [t]) (.immediate t 0 [] ht .nil) ?_ ih
    refine truncated_one_of_leader ?_
    intro q hq hne
    exact absurd (List.prefix_nil.mp hq) hne
  | fixed t k payload n rest0 ht hp hr ih =>
    have hv : WellFormed (t :: payload) := by
      simpa using WellFormedSeq.fixed t k payload 0 [] ht hp .nil
    refine truncated_step (v := t :: payload) hv ?_ ih
    refine truncated_one_of_leader ?_
    intro q hq hne f _ obj
    have hlen := proper_prefix_length hq hne
    simp only [after_leader, ht]
    exact ⟨q, discard_ptr_list_short (by omega) obj⟩
  | fixraw t payload n rest0 ht hp hr ih =>
    have hv : WellFormed (t :: payload) := by
      simpa using WellFormedSeq.fixraw t payload 0 [] ht hp .nil
    refine truncated_step (v := t :: payload) hv ?_ ih
    refine truncated_one_of_leader ?_
    intro q hq hne f _ obj
    have hlen := proper_prefix_length hq hne
    simp only [after_leader, ht]
    exact ⟨q, discard_ptr_list_short (by omega) obj⟩
  | fixarray t body n rest0 ht hb hr ihb ih =>
    have hv : WellFormed (t :: body) := by
      simpa using WellFormedSeq.fixarray t body 0 [] ht hb .nil
    refine truncated_step (v := t :: body) hv ?_ ih
    refine truncated_one_of_leader ?_
    intro q hq hne f hf obj
    simp only [after_leader, ht]
    exact ihb q hq hne f hf obj
  | fixmap t body n rest0 ht hb hr ihb ih =>
    have hv : WellFormed (t :: body) := by
      simpa using WellFormedSeq.fixmap t body 0 [] ht hb .nil
    refine truncated_step (v := t :: body) hv ?_ ih
    refine truncated_one_of_leader ?_
    intro q hq hne f hf obj
    simp only [after_leader, ht, copy_map_eq_copy_array]
    exact ihb q hq hne f hf obj
  | raw16 t b0 b1 payload n rest0 ht hp hr ih =>
    have hv : WellFormed (t :: b0 :: b1 :: payload) := by
      simpa using WellFormedSeq.raw16 t b0 b1 payload 0 [] ht hp .nil
    refine truncated_step (v := t :: b0 :: b1 :: payload) hv ?_ ih
    refine truncated_one_of_leader ?_
    intro q hq hne f hf obj
    simp only [after_leader, ht]
    rcases proper_prefix_append (d := [b0, b1]) hq hne with ⟨_, hlen⟩ | ⟨q1, rfl, hq1, hne1⟩
    · exact ⟨q, by rw [copy_bytes_list_short (by simpa using hlen)]; rfl⟩
    · have hlen := proper_prefix_length hq1 hne1
      have h2 := copy_bytes_list_append [b0, b1] q1 obj
      simp only [List.length_cons, List.length_nil] at h2
      rw [h2, and_then_ok, ntohs_at_pair]
      exact ⟨q1, discard_ptr_list_short (by omega) _⟩
  | raw32 t b0 b1 b2 b3 payload n rest0 ht hp hr ih =>
    have hv : WellFormed (t :: b0 :: b1 :: b2 :: b3 :: payload) := by
      simpa using WellFormedSeq.raw32 t b0 b1 b2 b3 payload 0 [] ht hp .nil
    refine truncated_step (v := t :: b0 :: b1 :: b2 :: b3 :: payload) hv ?_ ih
    refine truncated_one_of_leader ?_
    intro q hq hne f hf obj
    simp only [after_leader, ht]
    rcases proper_prefix_append (d := [b0, b1, b2, b3]) hq hne with
      ⟨_, hlen⟩ | ⟨q1, rfl, hq1, hne1⟩
    · exact ⟨q, by rw [copy_bytes_list_short (by simpa using hlen)]; rfl⟩
    · have hlen := proper_prefix_length hq1 hne1
      have h2 := copy_bytes_list_append [b0, b1, b2, b3] q1 obj
      simp only [List.length_cons, List.length_nil] at h2
      rw [h2, and_then_ok, ntohl_at_quad]
      exact ⟨q1, discard_ptr_list_short (by omega) _⟩
  | array16 t b0 b1 body n rest0 ht hb hr ihb ih =>
    have hv : WellFormed (t :: b0 :: b1 :: body) := by
      simpa using WellFormedSeq.array16 t b0 b1 body 0 [] ht hb .nil
    refine truncated_step (v := t :: b0 :: b1 :: body) hv ?_ ih
    refine truncated_one_of_leader ?_
    intro q hq hne f hf obj
    simp only [after_leader, ht]
    rcases proper_prefix_append (d := [b0, b1]) hq hne with ⟨_, hlen⟩ | ⟨q1, rfl, hq1, hne1⟩
    · exact ⟨q, by rw [copy_bytes_list_short (by simpa using hlen)]; rfl⟩
    · have h2 := copy_bytes_list_append [b0, b1] q1 obj
      simp only [List.length_cons, List.length_nil] at h2
      simp only [List.length_append] at hf
      rw [h2, and_then_ok, ntohs_at_pair]
      exact ihb q1 hq1 hne1 f (by omega) _
  | array32 t b0 b1 b2 b3 body n rest0 ht hb hr ihb ih =>
    have hv : WellFormed (t :: b0 :: b1 :: b2 :: b3 :: body) := by
      simpa using WellFormedSeq.array32 t b0 b1 b2 b3 body 0 [] ht hb .nil
    refine truncated_step (v := t :: b0 :: b1 :: b2 :: b3 :: body) hv ?_ ih
    refine truncated_one_of_leader ?_
    intro q hq hne f hf obj
    simp only [after_leader, ht]
    rcases proper_prefix_append (d := [b0, b1, b2, b3]) hq hne with
      ⟨_, hlen⟩ | ⟨q1, rfl, hq1, hne1⟩
    · exact ⟨q, by rw [copy_bytes_list_short (by simpa using hlen)]; rfl⟩
    · have h2 := copy_bytes_list_append [b0, b1, b2, b3] q1 obj
      simp only [List.length_cons, List.length_nil] at h2
      simp only [List.length_append] at hf
      rw [h2, and_then_ok, ntohl_at_quad]
      exact ihb q1 hq1 hne1 f (by omega) _
  | map16 t b0 b1 body n rest0 ht hb hr ihb ih =>
    have hv : WellFormed (t :: b0 :: b1 :: body) := by
      simpa using WellFormedSeq.map16 t b0 b1 body 0 [] ht hb .nil
    refine truncated_step (v := t :: b0 :: b1 :: body) hv ?_ ih
    refine truncated_one_of_leader ?_
    intro q hq hne f hf obj
    simp only [after_leader, ht, copy_map_eq_copy_array]
    rcases proper_prefix_append (d := [b0, b1]) hq hne with ⟨_, hlen⟩ | ⟨q1, rfl, hq1, hne1⟩
    · exact ⟨q, by rw [copy_bytes_list_short (by simpa using hlen)]; rfl⟩
    · have h2 := copy_bytes_list_append [b0, b1] q1 obj
      simp only [List.length_cons, List.length_nil] at h2
      simp only [List.length_append] at hf
      rw [h2, and_then_ok, ntohs_at_pair]
      exact ihb q1 hq1 hne1 f (by omega) _
  | map32 t b0 b1 b2 b3 body n rest0 ht hb hr ihb ih =>
    have hv : WellFormed (t :: b0 :: b1 :: b2 :: b3 :: body) := by
      simpa using WellFormedSeq.map32 t b0 b1 b2 b3 body 0 [] ht hb .nil
    refine truncated_step (v := t :: b0 :: b1 :: b2 :: b3 :: body) hv ?_ ih
    refine truncated_one_of_leader ?_
    intro q hq hne f hf obj
    simp only [after_leader, ht, copy_map_eq_copy_array]
    rcases proper_prefix_append (d := [b0, b1, b2, b3]) hq hne with
      ⟨_, hlen⟩ | ⟨q1, rfl, hq1, hne1⟩
    · exact ⟨q, by rw [copy_bytes_list_short (by simpa using hlen)]; rfl⟩
    · have h2 := copy_bytes_list_append [b0, b1, b2, b3] q1 obj
      simp only [List.length_cons, List.length_nil] at h2
      simp only [List.length_append] at hf
      rw [h2, and_then_ok, ntohl_at_quad]
      exact ihb q1 hq1 hne1 f (by omega) _

/-- The sample value is a well-formed encoded value. -/
theorem sample_value_wellFormed : WellFormed sample_value :=
  .fixarray 0x92 [0x81, 0xa1, 0x61, 0x91, 0xc0, 0xdc, 0x00, 0x01, 0xcc, 0x05] 0 [] (by decide)
    (.fixmap 0x81 [0xa1, 0x61, 0x91, 0xc0] 1 [0xdc, 0x00, 0x01, 0xcc, 0x05] (by decide)
      (.fixraw 0xa1 [0x61] 1 [0x91, 0xc0] (by decide) rfl
        (.fixarray 0x91 [0xc0] 0 [] (by decide) (.immediate 0xc0 0 [] (by decide) .nil) .nil))
      (.array16 0xdc 0x00 0x01 [0xcc, 0x05] 0 [] (by decide)
        (.fixed 0xcc 1 [0x05] 0 [] (by decide) rfl .nil) .nil))
    .nil

/-! ## Transcription: the claims -/

/-- Transcription of a stream that starts with a well-formed value `e`, with any
budget above the length of `e`. -/
theorem operator_rshift_of_wellFormed {e : List Byte} (he : WellFormed e) (rest : List Byte)
    (obj0 : PackedValue) (fuel : Nat) (hf : e.length < fuel) :
    operator_rshift ListStream.read fuel (e ++ rest) obj0 = .ok ⟨e⟩ rest := by
  obtain ⟨u1, h1, hu⟩ := copy_object_of_wellFormed listStream_readsFrom he fuel hf
    (e ++ rest) rest obj0.clear rfl
  rw [operator_rshift, h1, hu]
  simp [PackedValue.clear]

/-- C1 (round trip): for a well-formed encoded value with bytes `e`, transcribing
from a stream that starts with `e` succeeds, and emitting the resulting buffer
to a fresh output stream writes exactly the bytes `e`. -/
theorem roundtrip_transcribe_emit (e rest : List Byte) (obj0 : PackedValue)
    (he : WellFormed e) :
    ∃ obj, transcribe (e ++ rest) obj0 = .ok obj rest
      ∧ operator_lshift ListStream.write [] obj = e := by
  refine ⟨⟨e⟩, operator_rshift_of_wellFormed he rest obj0 _ (by simp; omega), ?_⟩
  simp [operator_lshift, ListStream.write, PackedValue.size]

/-- Witness of C1 on the sample value, followed by one more byte. -/
theorem roundtrip_transcribe_emit_witness :
    WellFormed sample_value ∧
    ∃ obj, transcribe (sample_value ++ [0x07]) ⟨[0x09]⟩ = .ok obj [0x07]
      ∧ operator_lshift ListStream.write [] obj = sample_value :=
  ⟨sample_value_wellFormed,
    roundtrip_transcribe_emit sample_value [0x07] ⟨[0x09]⟩ sample_value_wellFormed⟩

/-- C2 (exact consumption): for a well-formed encoded value with bytes `e` and any
bytes `rest`, transcribing from the stream `e ++ rest` succeeds with the buffer
holding `e` and the stream positioned exactly at `rest`; this is so for the
budget of `transcribe` and for every budget above the length of `e`. -/
theorem transcribe_consumes_exactly (e rest : List Byte) (obj0 : PackedValue)
    (he : WellFormed e) :
    transcribe (e ++ rest) obj0 = .ok ⟨e⟩ rest
      ∧ ∀ fuel, e.length < fuel →
          operator_rshift ListStream.read fuel (e ++ rest) obj0 = .ok ⟨e⟩ rest :=
  ⟨operator_rshift_of_wellFormed he rest obj0 _ (by simp; omega),
    fun fuel hf => operator_rshift_of_wellFormed he rest obj0 fuel hf⟩

/-- Witness of C2 on the sample value (containers nested three deep), followed by
two more bytes. -/
theorem transcribe_consumes_exactly_witness :
    WellFormed sample_value ∧
    (transcribe (sample_value ++ [0xc1, 0x07]) ⟨[]⟩ = .ok ⟨sample_value⟩ [0xc1, 0x07]
      ∧ ∀ fuel, sample_value.length < fuel →
          operator_rshift ListStream.read fuel (sample_value ++ [0xc1, 0x07]) ⟨[]⟩
            = .ok ⟨sample_value⟩ [0xc1, 0x07]) :=
  ⟨sample_value_wellFormed,
    transcribe_consumes_exactly sample_value [0xc1, 0x07] ⟨[]⟩ sample_value_wellFormed⟩

/-- C3 (buffer/stream consistency): for every input stream `s`, well-formed or
not, and every budget, if transcription succeeds with buffer `obj` and
remaining stream `r`, then `s` is the buffer's bytes followed by `r`. -/
theorem transcribe_buffer_stream_consistent (fuel : Nat) (s : List Byte)
    (obj0 obj : PackedValue) (r : List Byte)
    (h : operator_rshift ListStream.read fuel s obj0 = .ok obj r) :
    s = obj.data ++ r := by
  obtain ⟨c, _, hs, ho⟩ := copy_object_sound fuel s obj0.clear obj r h
  simp only [PackedValue.clear, List.nil_append] at ho
  rw [ho, hs]

/-- Witness of C3: a one-element array, then a byte that is no tag at all. -/
theorem transcribe_buffer_stream_consistent_witness :
    operator_rshift ListStream.read 2 [0x91, 0xc0, 0xc1] ⟨[0x05]⟩ = .ok ⟨[0x91, 0xc0]⟩ [0xc1]
      ∧ [0x91, 0xc0, 0xc1] = (⟨[0x91, 0xc0]⟩ : PackedValue).data ++ [0xc1] :=
  ⟨by decide,
    transcribe_buffer_stream_consistent 2 [0x91, 0xc0, 0xc1] ⟨[0x05]⟩ ⟨[0x91, 0xc0]⟩ [0xc1]
      (by decide)⟩

set_option maxRecDepth 100000 in
/-- The bytes that are no defined tag. -/
theorem tag_class_unknown_iff : ∀ t : Byte, tag_class t = .unknown ↔
    (t = 0xc1 ∨ (0xc4 ≤ t ∧ t ≤ 0xc9) ∨ (0xd4 ≤ t ∧ t ≤ 0xd9)) := by
  decide

/-- C5 (unknown tag): for every stream whose next byte `t` is not a defined tag,
transcription (with any budget, and with the budget of `transcribe`) fails with
`unpacker_error`, the message carrying `t` in decimal, and the stream is
positioned right after `t`: exactly one byte has been consumed. -/
theorem unknown_tag_fails (t : Byte) (rest : List Byte) (obj0 : PackedValue)
    (ht : tag_class t = .unknown) :
    (∀ fuel, 0 < fuel → operator_rshift ListStream.read fuel (t :: rest) obj0
        = .raise (.unpacker_error
            ("Don't know how to size MessagePack type " ++ Nat.repr t.val)) rest)
      ∧ transcribe (t :: rest) obj0
        = .raise (.unpacker_error
            ("Don't know how to size MessagePack type " ++ Nat.repr t.val)) rest := by
  have key : ∀ f, operator_rshift ListStream.read (f + 1) (t :: rest) obj0
      = .raise (.unpacker_error
          ("Don't know how to size MessagePack type " ++ Nat.repr t.val)) rest := by
    intro f
    rw [operator_rshift, copy_object_list_cons]
    simp only [after_leader, ht]
    rfl
  refine ⟨fun fuel hf => ?_, key _⟩
  obtain ⟨f, rfl⟩ : ∃ f, fuel = f + 1 := ⟨fuel - 1, by omega⟩
  exact key f

/-- Witness of C5: the tag 0xc1 (193). -/
theorem unknown_tag_fails_witness :
    tag_class 0xc1 = .unknown ∧
    ((∀ fuel, 0 < fuel → operator_rshift ListStream.read fuel (0xc1 :: [0x01, 0x02]) ⟨[0x09]⟩
        = .raise (.unpacker_error
            ("Don't know how to size MessagePack type " ++ Nat.repr (0xc1 : Byte).val))
            [0x01, 0x02])
      ∧ transcribe (0xc1 :: [0x01, 0x02]) ⟨[0x09]⟩
        = .raise (.unpacker_error
            ("Don't know how to size MessagePack type " ++ Nat.repr (0xc1 : Byte).val))
            [0x01, 0x02]) :=
  ⟨by decide, unknown_tag_fails 0xc1 [0x01, 0x02] ⟨[0x09]⟩ (by decide)⟩

/-- C6 (truncated input): for a well-formed encoded value with bytes `e` and every
proper prefix `p` of `e`, the empty one included, transcribing from a stream
that holds exactly `p` fails with the stream's short-read error, for the
budget of `transcribe` and for every budget above the length of `p`. -/
theorem truncated_input_rejected (e p : List Byte) (obj0 : PackedValue)
    (he : WellFormed e) (hp : p <+: e) (hne : p ≠ e) :
    (∃ r, transcribe p obj0 = .raise .stream_error r)
      ∧ ∀ fuel, p.length < fuel →
          ∃ r, operator_rshift ListStream.read fuel p obj0 = .raise .stream_error r := by
  have key : ∀ fuel, p.length < fuel →
      ∃ r, operator_rshift ListStream.read fuel p obj0 = .raise .stream_error r := by
    intro fuel hf
    obtain ⟨r, hr⟩ := truncated_fails he p hp hne fuel hf obj0.clear
    refine ⟨r, ?_⟩
    simp only [copy_array] at hr
    rw [operator_rshift]
    cases hco : copy_object ListStream.read fuel p obj0.clear with
    | ok a u2 => rw [hco] at hr; simp at hr
    | raise e2 u2 => rw [hco] at hr; simpa using hr
    | no_fuel => rw [hco] at hr; simp at hr
  exact ⟨key _ (by omega), key⟩

/-- Witness of C6: the sample value cut after its fourth byte. -/
theorem truncated_input_rejected_witness :
    WellFormed sample_value ∧ [0x92, 0x81, 0xa1, 0x61] <+: sample_value
      ∧ [0x92, 0x81, 0xa1, 0x61] ≠ sample_value ∧
    ((∃ r, transcribe [0x92, 0x81, 0xa1, 0x61] ⟨[]⟩ = .raise .stream_error r)
      ∧ ∀ fuel, [0x92, 0x81, 0xa1, 0x61].length < fuel →
          ∃ r, operator_rshift ListStream.read fuel [0x92, 0x81, 0xa1, 0x61] ⟨[]⟩
            = .raise .stream_error r) :=
  ⟨sample_value_wellFormed, ⟨[0x91, 0xc0, 0xdc, 0x00, 0x01, 0xcc, 0x05], rfl⟩, by decide,
    truncated_input_rejected sample_value [0x92, 0x81, 0xa1, 0x61] ⟨[]⟩
      sample_value_wellFormed ⟨[0x91, 0xc0, 0xdc, 0x00, 0x01, 0xcc, 0x05], rfl⟩ (by decide)⟩

/-- C7 (Packed Buffer invariant): after a successful transcription the buffer
`obj` holds exactly one complete encoded value: its bytes are well-formed, and
transcribing again from a `VectorReadStream` over `obj` (into any buffer, with
any budget above the size of `obj`) succeeds, reproduces the same bytes, and
ends with `pos = size`. -/
theorem packed_buffer_invariant (fuel : Nat) (s : List Byte) (obj0 obj : PackedValue)
    (r : List Byte) (h : operator_rshift ListStream.read fuel s obj0 = .ok obj r) :
    WellFormed obj.data
      ∧ ∀ (obj2 : PackedValue) (fuel2 : Nat), obj.size < fuel2 →
          operator_rshift VectorReadStream.read fuel2 (VectorReadStream.mk_at_start obj) obj2
            = .ok obj ⟨obj, obj.size⟩ := by
  obtain ⟨c, hw, _, ho⟩ := copy_object_sound fuel s obj0.clear obj r h
  simp only [PackedValue.clear, List.nil_append] at ho
  subst ho
  refine ⟨hw, fun obj2 fuel2 hf => ?_⟩
  obtain ⟨u1, h1, hv, hpos, hl⟩ := copy_object_of_wellFormed (vectorReadStream_readsFrom obj)
    hw fuel2 hf (VectorReadStream.mk_at_start obj) [] obj2.clear
    ⟨rfl, Nat.zero_le _, by simp [VectorReadStream.mk_at_start]⟩
  have hsz : u1.pos = obj.size := by
    have := List.drop_eq_nil_iff.mp hl.symm
    simp only [PackedValue.size] at hpos ⊢
    omega
  have hu : u1 = ⟨obj, obj.size⟩ := by
    cases u1
    simp only at hv hsz
    rw [hv, hsz]
  rw [operator_rshift, h1, hu]
  simp [PackedValue.clear]

/-- Witness of C7: the buffer left by transcribing a two-element array. -/
theorem packed_buffer_invariant_witness :
    operator_rshift ListStream.read 2 [0x92, 0xc0, 0xa1, 0x61, 0x07] ⟨[]⟩
        = .ok ⟨[0x92, 0xc0, 0xa1, 0x61]⟩ [0x07] ∧
    (WellFormed (⟨[0x92, 0xc0, 0xa1, 0x61]⟩ : PackedValue).data
      ∧ ∀ (obj2 : PackedValue) (fuel2 : Nat),
          (⟨[0x92, 0xc0, 0xa1, 0x61]⟩ : PackedValue).size < fuel2 →
          operator_rshift VectorReadStream.read fuel2
              (VectorReadStream.mk_at_start ⟨[0x92, 0xc0, 0xa1, 0x61]⟩) obj2
            = .ok ⟨[0x92, 0xc0, 0xa1, 0x61]⟩
                ⟨⟨[0x92, 0xc0, 0xa1, 0x61]⟩, (⟨[0x92, 0xc0, 0xa1, 0x61]⟩ : PackedValue).size⟩) :=
  ⟨by decide,
    packed_buffer_invariant 2 [0x92, 0xc0, 0xa1, 0x61, 0x07] ⟨[]⟩ ⟨[0x92, 0xc0, 0xa1, 0x61]⟩
      [0x07] (by decide)⟩

/-! ## Rows: the claims -/

/-- Packing the columns in `is` through a `write` that appends to what `view`
shows, appends the column encodings. -/
theorem pack_columns_view {ω : Type} (write : ω → List Byte → ω) (view : ω → List Byte)
    (hview : ∀ o b, view (write o b) = view o ++ b) (row : DatabaseRow) (is : List Nat) (o : ω) :
    view (is.foldl
      (fun packer i =>
        if row.null_at i then Packer.pack_nil write packer
        else Packer.pack_string write packer (row.string_at i)) o)
      = view o ++ is.flatMap (column_encoding row) := by
  induction is generalizing o with
  | nil => simp
  | cons i is ih =>
    simp only [List.foldl_cons, List.flatMap_cons, ih]
    by_cases hn : row.null_at i = true
    · simp [hn, Packer.pack_nil, hview, column_encoding]
    · simp [hn, Packer.pack_string, hview, column_encoding]

/-- What `RowPacker::operator()` adds to the output, for any output stream whose
`write` appends to what `view` shows. -/
theorem RowPacker.call_view {ω : Type} (write : ω → List Byte → ω) (view : ω → List Byte)
    (hview : ∀ o b, view (write o b) = view o ++ b) (row : DatabaseRow) (o : ω) :
    view (RowPacker.call write o row) = view o ++ row_encoding row := by
  simp [RowPacker.call, pack_columns_view write view hview, Packer.pack_array_length, hview,
    row_encoding]

/-- What `RowPacker::operator()` appends to a list stream. -/
theorem RowPacker.call_list (row : DatabaseRow) (out : List Byte) :
    RowPacker.call ListStream.write out row = out ++ row_encoding row :=
  RowPacker.call_view ListStream.write id (fun _ _ => rfl) row out

/-- What `RowHasher::operator()` feeds to the digest. -/
theorem RowHasher.call_mdctx (self : RowHasher) (row : DatabaseRow) :
    (self.call row).mdctx.flatten = self.mdctx.flatten ++ row_encoding row := by
  simp [RowHasher.call, pack_columns_view RowHasher.write (fun h => h.mdctx.flatten)
    (by intro o b; simp [RowHasher.write]), Packer.pack_array_length, RowHasher.write,
    row_encoding]

/-- Visiting rows with a `RowPacker` over a list stream appends their encodings. -/
theorem visit_rows_RowPacker (rows : List DatabaseRow) (out : List Byte) :
    visit_rows (RowPacker.call ListStream.write) out rows = out ++ rows.flatMap row_encoding := by
  induction rows generalizing out with
  | nil => simp [visit_rows]
  | cons row rows ih =>
    simp only [visit_rows, List.foldl_cons, List.flatMap_cons] at ih ⊢
    rw [ih, RowPacker.call_list]
    simp

/-- Visiting rows with a `RowHasher` feeds their encodings to the digest. -/
theorem visit_rows_RowHasher (rows : List DatabaseRow) (self : RowHasher) :
    (visit_rows RowHasher.call self rows).mdctx.flatten
      = self.mdctx.flatten ++ rows.flatMap row_encoding := by
  induction rows generalizing self with
  | nil => simp [visit_rows]
  | cons row rows ih =>
    simp only [visit_rows, List.foldl_cons, List.flatMap_cons] at ih ⊢
    rw [ih, RowHasher.call_mdctx]
    simp

/-- C8 (row encoding): for every row, `RowPacker::operator()` appends to the
output the array-length marker for the column count `n` followed, for
`i = 0..n-1` in index order, by the nil marker when column `i` is null and
otherwise by the column's string as a length-prefixed raw string, and nothing
else; and the row `["abc", null, "12345678901234567890123456789012"]` encodes
to `0x93 0xa3 'a' 'b' 'c' 0xc0 0xda 0x00 0x20` and the 32 raw bytes. -/
theorem row_packer_encoding :
    (∀ (row : DatabaseRow) (out : List Byte),
      RowPacker.call ListStream.write out row
        = out ++ array_length_marker row.n_columns
            ++ (List.range row.n_columns).flatMap (fun i =>
                if row.null_at i then nil_marker
                else raw_marker (row.string_at i).length ++ row.string_at i))
    ∧ RowPacker.call ListStream.write [] sample_row
        = [0x93, 0xa3, 0x61, 0x62, 0x63, 0xc0, 0xda, 0x00, 0x20,
           0x31, 0x32, 0x33, 0x34, 0x35, 0x36, 0x37, 0x38, 0x39, 0x30,
           0x31, 0x32, 0x33, 0x34, 0x35, 0x36, 0x37, 0x38, 0x39, 0x30,
           0x31, 0x32, 0x33, 0x34, 0x35, 0x36, 0x37, 0x38, 0x39, 0x30, 0x31, 0x32] := by
  refine ⟨fun row out => ?_, by decide⟩
  have h := RowPacker.call_list row out
  simp only [row_encoding, ← List.append_assoc] at h
  exact h

/-- C9 (end marker): `RowPacker::pack_end` appends exactly the zero-length array
marker, one byte, and nothing else; zero rows and then `pack_end` give an
output of exactly that one byte; visiting rows never writes the end marker
implicitly: zero rows write nothing, and the output of visiting a row sequence
is exactly, row after row, the array-length marker for the column count
followed by the columns (nil marker or length-prefixed string), with nothing
after the last column of a row or after the last row; the sample row alone
gives its 41 bytes and no more. -/
theorem pack_end_marker :
    (∀ out : List Byte, RowPacker.pack_end ListStream.write out = out ++ [0x90])
    ∧ RowPacker.pack_end ListStream.write (visit_rows (RowPacker.call ListStream.write) [] [])
        = [0x90]
    ∧ (RowPacker.pack_end ListStream.write
        (visit_rows (RowPacker.call ListStream.write) [] [])).length = 1
    ∧ visit_rows (RowPacker.call ListStream.write) [] [] = []
    ∧ (∀ (rows : List DatabaseRow) (out : List Byte),
        visit_rows (RowPacker.call ListStream.write) out rows
          = out ++ rows.flatMap (fun row =>
              array_length_marker row.n_columns
                ++ (List.range row.n_columns).flatMap (fun i =>
                    if row.null_at i then nil_marker
                    else raw_marker (row.string_at i).length ++ row.string_at i)))
    ∧ visit_rows (RowPacker.call ListStream.write) [] [sample_row]
        = [0x93, 0xa3, 0x61, 0x62, 0x63, 0xc0, 0xda, 0x00, 0x20,
           0x31, 0x32, 0x33, 0x34, 0x35, 0x36, 0x37, 0x38, 0x39, 0x30,
           0x31, 0x32, 0x33, 0x34, 0x35, 0x36, 0x37, 0x38, 0x39, 0x30,
           0x31, 0x32, 0x33, 0x34, 0x35, 0x36, 0x37, 0x38, 0x39, 0x30, 0x31, 0x32] := by
  refine ⟨fun out => rfl, rfl, rfl, rfl, fun rows out => ?_, by decide⟩
  rw [visit_rows_RowPacker]
  rfl

/-- C10 (the Row Hasher hashes the Row Encoder's bytes): for every finite row
sequence, the concatenation of the chunks a fresh `RowHasher` passes to the
digest update while visiting it equals the concatenation of the `RowPacker`
encodings of its rows in order, with no end marker; `finish()` returns the
digest of that byte string, and for no rows the digest of the empty string. -/
theorem row_hasher_hashes_row_encoding (digest : List Byte → List Byte) :
    (∀ rows : List DatabaseRow,
      (visit_rows RowHasher.call RowHasher.new rows).mdctx.flatten
          = rows.flatMap (fun row => RowPacker.call ListStream.write [] row)
        ∧ (visit_rows RowHasher.call RowHasher.new rows).mdctx.flatten
          = visit_rows (RowPacker.call ListStream.write) [] rows
        ∧ (RowHasher.finish digest (visit_rows RowHasher.call RowHasher.new rows)).md_value
          = digest (rows.flatMap (fun row => RowPacker.call ListStream.write [] row)))
    ∧ RowHasher.finish digest (visit_rows RowHasher.call RowHasher.new [])
        = ⟨(digest []).length, digest []⟩ := by
  have henc : (fun row => RowPacker.call ListStream.write [] row) = row_encoding := by
    funext row
    simpa using RowPacker.call_list row []
  have hfeed : ∀ rows : List DatabaseRow,
      (visit_rows RowHasher.call RowHasher.new rows).mdctx.flatten
        = rows.flatMap row_encoding := by
    intro rows
    rw [visit_rows_RowHasher]
    simp [RowHasher.new]
  refine ⟨fun rows => ⟨?_, ?_, ?_⟩, rfl⟩
  · rw [henc, hfeed]
  · rw [hfeed, visit_rows_RowPacker]; simp
  · rw [henc, RowHasher.finish, hfeed]

/-! ## Visitors: the claims -/

/-- Rows that show the same columns have the same encoding. -/
theorem row_encoding_congr {r1 r2 : DatabaseRow} (h : SameColumns r1 r2) :
    row_encoding r1 = row_encoding r2 := by
  obtain ⟨hn, hcol⟩ := h
  unfold row_encoding
  rw [← hn]
  congr 1
  simp only [List.flatMap]
  congr 1
  apply List.map_congr_left
  intro i hi
  obtain ⟨hnull, hstr⟩ := hcol i (List.mem_range.mp hi)
  unfold column_encoding
  rw [← hnull]
  cases hc : r1.null_at i with
  | true => rfl
  | false => simp [hstr hc]

/-- Row sequences that show the same columns, row by row, have the same encoding. -/
theorem rows_encoding_congr {rows1 rows2 : List DatabaseRow}
    (h : List.Forall₂ SameColumns rows1 rows2) :
    rows1.flatMap row_encoding = rows2.flatMap row_encoding := by
  induction h with
  | nil => rfl
  | cons hrow _ ih => simp only [List.flatMap_cons, row_encoding_congr hrow, ih]

/-- C11 (determinism of the fingerprint): two freshly constructed `RowHasher`
instances that visit, in the same order, rows showing the same column counts,
null flags and string values return the same hash from `finish()`, bytes and
length; in particular two runs over the same row sequence agree. -/
theorem fingerprint_deterministic (digest : List Byte → List Byte)
    (rows1 rows2 : List DatabaseRow) (h : List.Forall₂ SameColumns rows1 rows2) :
    RowHasher.finish digest (visit_rows RowHasher.call RowHasher.new rows1)
        = RowHasher.finish digest (visit_rows RowHasher.call RowHasher.new rows2)
      ∧ (RowHasher.finish digest (visit_rows RowHasher.call RowHasher.new rows1)).md_value
        = (RowHasher.finish digest (visit_rows RowHasher.call RowHasher.new rows2)).md_value
      ∧ (RowHasher.finish digest (visit_rows RowHasher.call RowHasher.new rows1)).md_len
        = (RowHasher.finish digest (visit_rows RowHasher.call RowHasher.new rows2)).md_len := by
  have hfeed : (visit_rows RowHasher.call RowHasher.new rows1).mdctx.flatten
      = (visit_rows RowHasher.call RowHasher.new rows2).mdctx.flatten := by
    rw [visit_rows_RowHasher, visit_rows_RowHasher, rows_encoding_congr h]
  have hfin : RowHasher.finish digest (visit_rows RowHasher.call RowHasher.new rows1)
      = RowHasher.finish digest (visit_rows RowHasher.call RowHasher.new rows2) := by
    simp only [RowHasher.finish, hfeed]
  exact ⟨hfin, by rw [hfin], by rw [hfin]⟩

/-- Witness of C11: two one-row sequences `["a", null]` whose accessors differ only
in what `string_at` returns for the null column. -/
theorem fingerprint_deterministic_witness :
    List.Forall₂ SameColumns
        [⟨2, fun i => decide (i = 1), fun _ => [0x61]⟩]
        [⟨2, fun i => decide (i = 1), fun i => if i = 1 then [0x7a] else [0x61]⟩]
    ∧ (RowHasher.finish id (visit_rows RowHasher.call RowHasher.new
          [⟨2, fun i => decide (i = 1), fun _ => [0x61]⟩])
        = RowHasher.finish id (visit_rows RowHasher.call RowHasher.new
          [⟨2, fun i => decide (i = 1), fun i => if i = 1 then [0x7a] else [0x61]⟩])
      ∧ (RowHasher.finish id (visit_rows RowHasher.call RowHasher.new
          [⟨2, fun i => decide (i = 1), fun _ => [0x61]⟩])).md_value
        = (RowHasher.finish id (visit_rows RowHasher.call RowHasher.new
          [⟨2, fun i => decide (i = 1), fun i => if i = 1 then [0x7a] else [0x61]⟩])).md_value
      ∧ (RowHasher.finish id (visit_rows RowHasher.call RowHasher.new
          [⟨2, fun i => decide (i = 1), fun _ => [0x61]⟩])).md_len
        = (RowHasher.finish id (visit_rows RowHasher.call RowHasher.new
          [⟨2, fun i => decide (i = 1), fun i => if i = 1 then [0x7a] else [0x61]⟩])).md_len) :=
  have hsame : List.Forall₂ SameColumns
      [⟨2, fun i => decide (i = 1), fun _ => [0x61]⟩]
      [⟨2, fun i => decide (i = 1), fun i => if i = 1 then [0x7a] else [0x61]⟩] :=
    .cons ⟨rfl, fun i _ => ⟨rfl, fun hi => by
      have h1 : ¬ i = 1 := by simpa using hi
      simp [h1]⟩⟩ .nil
  ⟨hsame, fingerprint_deterministic id _ _ hsame⟩

/-- Assigning `g i` to entry `i` for `i = 0..k-1`, in order, on a vector of at least
`k` entries. -/
theorem foldl_set_range (g : Nat → List Byte) (k : Nat) (l : List (List Byte))
    (hk : k ≤ l.length) :
    (List.range k).foldl (fun v i => v.set i (g i)) l = (List.range k).map g ++ l.drop k := by
  induction k with
  | zero => simp
  | succ k ih =>
    rw [List.range_succ, List.foldl_append, ih (by omega)]
    simp only [List.foldl_cons, List.foldl_nil, List.map_append, List.map_cons, List.map_nil]
    have hlen : ((List.range k).map g).length = k := by simp
    have hd : l.drop k = l[k] :: l.drop (k + 1) := List.drop_eq_getElem_cons (by omega)
    rw [List.set_append_right _ _ (by omega), hlen, Nat.sub_self, hd, List.set_cons_zero,
      List.append_assoc]
    rfl

/-- The entries of a list, picked by index. -/
theorem map_range_getD {α β : Type} (l : List α) (d : α) (f : α → β) :
    (List.range l.length).map (fun i => f (l.getD i d)) = l.map f := by
  apply List.ext_getElem
  · simp
  · intro i h1 h2
    simp only [List.length_map, List.length_range] at h1
    simp [List.getElem?_eq_getElem h1]

/-- The vector after `resize(n)` has `n` entries. -/
theorem vector_resize_length (v : List (List Byte)) (n : Nat) :
    (vector_resize v n).length = n := by
  simp only [vector_resize, List.length_append, List.length_take, List.length_replicate]
  omega

/-- One visit of `RowLastKey` stores the row's strings at the key columns. -/
theorem RowLastKey.call_last_key (self : RowLastKey) (row : DatabaseRow) :
    (self.call row).last_key = self.primary_key_columns.map row.string_at
      ∧ (self.call row).primary_key_columns = self.primary_key_columns := by
  refine ⟨?_, rfl⟩
  simp only [RowLastKey.call]
  rw [foldl_set_range _ _ _ (by rw [vector_resize_length])]
  rw [List.drop_of_length_le (by rw [vector_resize_length]), List.append_nil]
  exact map_range_getD self.primary_key_columns 0 row.string_at

/-- Visiting rows keeps the configured key columns. -/
theorem visit_rows_RowLastKey_columns (rows : List DatabaseRow) (self : RowLastKey) :
    (visit_rows RowLastKey.call self rows).primary_key_columns = self.primary_key_columns := by
  induction rows generalizing self with
  | nil => rfl
  | cons row rows ih =>
    simp only [visit_rows, List.foldl_cons] at ih ⊢
    rw [ih, (RowLastKey.call_last_key self row).2]

/-- C12 (last-key correctness): after a `RowLastKey` configured with the key
columns `c1..cm` has visited a non-empty row sequence `r1..rn` in order, its
`last_key` has exactly `m` entries and entry `j` is the string of `rn` at column
`cj`, in the configured order, whatever `r1..r(n-1)` were. -/
theorem last_key_correct (primary_key_columns : List Nat) (rows : List DatabaseRow)
    (last : DatabaseRow) :
    (visit_rows RowLastKey.call (RowLastKey.new primary_key_columns) (rows ++ [last])).last_key
        = primary_key_columns.map last.string_at
      ∧ (visit_rows RowLastKey.call (RowLastKey.new primary_key_columns)
          (rows ++ [last])).last_key.length = primary_key_columns.length
      ∧ ∀ j (hj : j < primary_key_columns.length),
          (visit_rows RowLastKey.call (RowLastKey.new primary_key_columns)
            (rows ++ [last])).last_key.getD j []
            = last.string_at (primary_key_columns.get ⟨j, hj⟩) := by
  have h : (visit_rows RowLastKey.call (RowLastKey.new primary_key_columns)
      (rows ++ [last])).last_key = primary_key_columns.map last.string_at := by
    simp only [visit_rows, List.foldl_append, List.foldl_cons, List.foldl_nil]
    rw [(RowLastKey.call_last_key _ last).1]
    have := visit_rows_RowLastKey_columns rows (RowLastKey.new primary_key_columns)
    simp only [visit_rows] at this
    rw [this]
    rfl
  refine ⟨h, by rw [h, List.length_map], fun j hj => ?_⟩
  rw [h, List.getD_eq_getElem _ _ (by simpa using hj)]
  simp

/-- Visiting rows with the composite visits them with each of its two parts. -/
theorem visit_rows_RowHasherAndLastKey (rows : List DatabaseRow) (self : RowHasherAndLastKey) :
    (visit_rows RowHasherAndLastKey.call self rows).toRowHasher
        = visit_rows RowHasher.call self.toRowHasher rows
      ∧ (visit_rows RowHasherAndLastKey.call self rows).toRowLastKey
        = visit_rows RowLastKey.call self.toRowLastKey rows := by
  induction rows generalizing self with
  | nil => exact ⟨rfl, rfl⟩
  | cons row rows ih =>
    simp only [visit_rows, List.foldl_cons] at ih ⊢
    exact ih (self.call row)

/-- C13 (the composite visitor is a pure composition): after `RowHasherAndLastKey`
has visited a row sequence, its hasher part (the chunks fed to the digest, the
row count, hence `finish()`) is that of a standalone `RowHasher` and its
last-key part that of a standalone `RowLastKey` after the same rows; each visit
is the hasher visit followed by the last-key visit, and touches nothing else. -/
theorem composite_visitor_is_composition (digest : List Byte → List Byte)
    (primary_key_columns : List Nat) (rows : List DatabaseRow) :
    (visit_rows RowHasherAndLastKey.call (RowHasherAndLastKey.new primary_key_columns)
        rows).toRowHasher = visit_rows RowHasher.call RowHasher.new rows
      ∧ RowHasher.finish digest (visit_rows RowHasherAndLastKey.call
          (RowHasherAndLastKey.new primary_key_columns) rows).toRowHasher
        = RowHasher.finish digest (visit_rows RowHasher.call RowHasher.new rows)
      ∧ (visit_rows RowHasherAndLastKey.call (RowHasherAndLastKey.new primary_key_columns)
          rows).toRowLastKey
        = visit_rows RowLastKey.call (RowLastKey.new primary_key_columns) rows
      ∧ (∀ (self : RowHasherAndLastKey) (row : DatabaseRow),
          self.call row = (self.hasher_step row).last_key_step row
          ∧ self.call row = ⟨self.toRowHasher.call row, self.toRowLastKey.call row⟩) := by
  obtain ⟨h1, h2⟩ :=
    visit_rows_RowHasherAndLastKey rows (RowHasherAndLastKey.new primary_key_columns)
  refine ⟨h1, by rw [h1]; rfl, h2, fun self row => ⟨rfl, rfl⟩⟩

/-- The row count after visiting rows. -/
theorem visit_rows_row_count (rows : List DatabaseRow) (self : RowHasher) :
    (visit_rows RowHasher.call self rows).row_count = self.row_count + rows.length := by
  have hcols : ∀ (row : DatabaseRow) (is : List Nat) (h : RowHasher),
      (is.foldl (fun self i =>
        if row.null_at i then Packer.pack_nil RowHasher.write self
        else Packer.pack_string RowHasher.write self (row.string_at i)) h).row_count
        = h.row_count := by
    intro row is
    induction is with
    | nil => intro h; rfl
    | cons i is ih =>
      intro h
      simp only [List.foldl_cons]
      rw [ih]
      by_cases hn : row.null_at i = true
      · simp [hn, Packer.pack_nil, RowHasher.write]
      · simp [hn, Packer.pack_string, RowHasher.write]
  induction rows generalizing self with
  | nil => rfl
  | cons row rows ih =>
    simp only [visit_rows, List.foldl_cons, List.length_cons] at ih ⊢
    rw [ih, RowHasher.call, hcols]
    simp only [Packer.pack_array_length, RowHasher.write]
    omega

/-- C16 (row counter): a freshly constructed `RowHasher` has `row_count = 0`; after
visiting any `n` rows `row_count = n`, each visit adding exactly one whatever
the column count (zero columns included); `finish()` leaves `row_count` as it
was. -/
theorem row_counter :
    RowHasher.new.row_count = 0
      ∧ (∀ rows : List DatabaseRow,
          (visit_rows RowHasher.call RowHasher.new rows).row_count = rows.length)
      ∧ (∀ (self : RowHasher) (row : DatabaseRow),
          (self.call row).row_count = self.row_count + 1)
      ∧ (∀ (self : RowHasher) (null_at : Nat → Bool) (string_at : Nat → List Byte),
          (self.call ⟨0, null_at, string_at⟩).row_count = self.row_count + 1)
      ∧ (∀ (digest : List Byte → List Byte) (self : RowHasher),
          (self.finished digest).row_count = self.row_count) := by
  have hone : ∀ (self : RowHasher) (row : DatabaseRow),
      (self.call row).row_count = self.row_count + 1 := by
    intro self row
    simpa [visit_rows] using visit_rows_row_count [row] self
  refine ⟨rfl, fun rows => ?_, hone, fun self n s => hone self _, fun _ _ => rfl⟩
  rw [visit_rows_row_count]
  simp [RowHasher.new]

/-! ## Length fields -/

/-- The leader and a 16-bit length field on the list stream. -/
theorem copy_object_len16 (t b0 b1 : Byte) (rest : List Byte) (obj : PackedValue)
    (k : List Byte × PackedValue → List Byte → Outcome (List Byte) PackedValue) :
    ((copy_bytes ListStream.read (b0 :: b1 :: rest) ⟨obj.data ++ [t]⟩ 2).and_then k)
      = k ([b0, b1], ⟨obj.data ++ [t, b0, b1]⟩) rest := by
  have h := copy_bytes_list_append [b0, b1] rest ⟨obj.data ++ [t]⟩
  simp only [List.length_cons, List.length_nil, List.cons_append, List.nil_append,
    List.append_assoc] at h
  rw [h, and_then_ok]

/-- The leader and a 32-bit length field on the list stream. -/
theorem copy_object_len32 (t b0 b1 b2 b3 : Byte) (rest : List Byte)
    (obj : PackedValue)
    (k : List Byte × PackedValue → List Byte → Outcome (List Byte) PackedValue) :
    ((copy_bytes ListStream.read (b0 :: b1 :: b2 :: b3 :: rest) ⟨obj.data ++ [t]⟩ 4).and_then k)
      = k ([b0, b1, b2, b3], ⟨obj.data ++ [t, b0, b1, b2, b3]⟩) rest := by
  have h := copy_bytes_list_append [b0, b1, b2, b3] rest ⟨obj.data ++ [t]⟩
  simp only [List.length_cons, List.length_nil, List.cons_append, List.nil_append,
    List.append_assoc] at h
  rw [h, and_then_ok]

/-- C15 (length fields are big-endian): after a string16/array16/map16 leader and
the length bytes `b0 b1`, the byte count, element count or pair count used is
`256*b0 + b1`; after a string32/array32/map32 leader and `b0 b1 b2 b3` it is
`2^24*b0 + 2^16*b1 + 2^8*b2 + b3`; the leader and the length bytes are in the
buffer unchanged; and a map of `n` pairs is copied as `2n` nested values. -/
theorem length_fields_big_endian :
    (∀ (f : Nat) (b0 b1 : Byte) (rest : List Byte) (obj : PackedValue),
        copy_object ListStream.read (f + 1) (MSGPACK_RAW16 :: b0 :: b1 :: rest) obj
          = discard_ptr (copy_bytes ListStream.read rest
              ⟨obj.data ++ [MSGPACK_RAW16, b0, b1]⟩ (256 * b0.val + b1.val)))
    ∧ (∀ (f : Nat) (b0 b1 : Byte) (rest : List Byte) (obj : PackedValue),
        copy_object ListStream.read (f + 1) (MSGPACK_ARRAY16 :: b0 :: b1 :: rest) obj
          = copy_array (copy_object ListStream.read f) (256 * b0.val + b1.val) rest
              ⟨obj.data ++ [MSGPACK_ARRAY16, b0, b1]⟩)
    ∧ (∀ (f : Nat) (b0 b1 : Byte) (rest : List Byte) (obj : PackedValue),
        copy_object ListStream.read (f + 1) (MSGPACK_MAP16 :: b0 :: b1 :: rest) obj
          = copy_map (copy_object ListStream.read f) (256 * b0.val + b1.val) rest
              ⟨obj.data ++ [MSGPACK_MAP16, b0, b1]⟩)
    ∧ (∀ (f : Nat) (b0 b1 b2 b3 : Byte) (rest : List Byte) (obj : PackedValue),
        copy_object ListStream.read (f + 1) (MSGPACK_RAW32 :: b0 :: b1 :: b2 :: b3 :: rest) obj
          = discard_ptr (copy_bytes ListStream.read rest
              ⟨obj.data ++ [MSGPACK_RAW32, b0, b1, b2, b3]⟩
              (2 ^ 24 * b0.val + 2 ^ 16 * b1.val + 2 ^ 8 * b2.val + b3.val)))
    ∧ (∀ (f : Nat) (b0 b1 b2 b3 : Byte) (rest : List Byte) (obj : PackedValue),
        copy_object ListStream.read (f + 1) (MSGPACK_ARRAY32 :: b0 :: b1 :: b2 :: b3 :: rest) obj
          = copy_array (copy_object ListStream.read f)
              (2 ^ 24 * b0.val + 2 ^ 16 * b1.val + 2 ^ 8 * b2.val + b3.val) rest
              ⟨obj.data ++ [MSGPACK_ARRAY32, b0, b1, b2, b3]⟩)
    ∧ (∀ (f : Nat) (b0 b1 b2 b3 : Byte) (rest : List Byte) (obj : PackedValue),
        copy_object ListStream.read (f + 1) (MSGPACK_MAP32 :: b0 :: b1 :: b2 :: b3 :: rest) obj
          = copy_map (copy_object ListStream.read f)
              (2 ^ 24 * b0.val + 2 ^ 16 * b1.val + 2 ^ 8 * b2.val + b3.val) rest
              ⟨obj.data ++ [MSGPACK_MAP32, b0, b1, b2, b3]⟩)
    ∧ (∀ (co : List Byte → PackedValue → Outcome (List Byte) PackedValue) (n : Nat)
        (s : List Byte) (obj : PackedValue),
        copy_map co n s obj = copy_array co (2 * n) s obj)
    ∧ (∀ (f n : Nat) (s r : List Byte) (obj obj1 : PackedValue),
        copy_map (copy_object ListStream.read f) n s obj = .ok obj1 r →
          ∃ c, WellFormedSeq (2 * n) c ∧ s = c ++ r ∧ obj1.data = obj.data ++ c) := by
  refine ⟨?_, ?_, ?_, ?_, ?_, ?_, fun co n s obj => copy_map_eq_copy_array co n s obj, ?_⟩
  · intro f b0 b1 rest obj
    rw [copy_object_list_cons]
    simp only [after_leader, show tag_class MSGPACK_RAW16 = .raw16 from rfl]
    rw [copy_object_len16]
    rfl
  · intro f b0 b1 rest obj
    rw [copy_object_list_cons]
    simp only [after_leader, show tag_class MSGPACK_ARRAY16 = .array16 from rfl]
    rw [copy_object_len16]
    rfl
  · intro f b0 b1 rest obj
    rw [copy_object_list_cons]
    simp only [after_leader, show tag_class MSGPACK_MAP16 = .map16 from rfl]
    rw [copy_object_len16]
    rfl
  · intro f b0 b1 b2 b3 rest obj
    rw [copy_object_list_cons]
    simp only [after_leader, show tag_class MSGPACK_RAW32 = .raw32 from rfl]
    rw [copy_object_len32]
    rfl
  · intro f b0 b1 b2 b3 rest obj
    rw [copy_object_list_cons]
    simp only [after_leader, show tag_class MSGPACK_ARRAY32 = .array32 from rfl]
    rw [copy_object_len32]
    rfl
  · intro f b0 b1 b2 b3 rest obj
    rw [copy_object_list_cons]
    simp only [after_leader, show tag_class MSGPACK_MAP32 = .map32 from rfl]
    rw [copy_object_len32]
    rfl
  · intro f n s r obj obj1 h
    rw [copy_map_eq_copy_array] at h
    exact copy_array_sound _ (copy_object_sound f) _ _ _ _ _ h

/-! ## Termination -/

/-- Every encoded value takes at least one byte. -/
theorem WellFormedSeq.le_length {n : Nat} {c : List Byte} (h : WellFormedSeq n c) :
    n ≤ c.length := by
  induction h with
  | nil => simp
  | immediate t n rest ht hr ih => simp only [List.length_cons]; omega
  | fixed t k payload n rest ht hp hr ih =>
    simp only [List.length_cons, List.length_append]; omega
  | fixraw t payload n rest ht hp hr ih =>
    simp only [List.length_cons, List.length_append]; omega
  | fixarray t body n rest ht hb hr ihb ih =>
    simp only [List.length_cons, List.length_append]; omega
  | fixmap t body n rest ht hb hr ihb ih =>
    simp only [List.length_cons, List.length_append]; omega
  | raw16 t b0 b1 payload n rest ht hp hr ih =>
    simp only [List.length_cons, List.length_append]; omega
  | raw32 t b0 b1 b2 b3 payload n rest ht hp hr ih =>
    simp only [List.length_cons, List.length_append]; omega
  | array16 t b0 b1 body n rest ht hb hr ihb ih =>
    simp only [List.length_cons, List.length_append]; omega
  | array32 t b0 b1 b2 b3 body n rest ht hb hr ihb ih =>
    simp only [List.length_cons, List.length_append]; omega
  | map16 t b0 b1 body n rest ht hb hr ihb ih =>
    simp only [List.length_cons, List.length_append]; omega
  | map32 t b0 b1 b2 b3 body n rest ht hb hr ihb ih =>
    simp only [List.length_cons, List.length_append]; omega

/-- A successful loop of `copy_array` over `n` values has consumed at least `n` bytes. -/
theorem copy_array_progress (fuel n : Nat) (s r : List Byte) (obj obj1 : PackedValue)
    (h : copy_array (copy_object ListStream.read fuel) n s obj = .ok obj1 r) :
    r.length + n ≤ s.length := by
  obtain ⟨c, hw, hs, _⟩ := copy_array_sound _ (copy_object_sound fuel) _ _ _ _ _ h
  have := hw.le_length
  rw [hs, List.length_append]
  omega

/-- A successful `copy_object` has consumed at least one byte. -/
theorem copy_object_progress (fuel : Nat) (s r : List Byte) (obj obj1 : PackedValue)
    (h : copy_object ListStream.read fuel s obj = .ok obj1 r) :
    r.length < s.length := by
  obtain ⟨c, hw, hs, _⟩ := copy_object_sound fuel _ _ _ _ h
  have := hw.le_length
  rw [hs, List.length_append]
  omega

/-- A payload copy on the list stream never exhausts the budget. -/
theorem discard_ptr_list_ne_no_fuel (s : List Byte) (obj : PackedValue) (k : Nat) :
    discard_ptr (copy_bytes ListStream.read s obj k) ≠ .no_fuel := by
  unfold discard_ptr copy_bytes ListStream.read
  split <;> simp

/-- The loop of `copy_array` does not exhaust the budget if `copy_object` does not
on streams that are no longer. -/
theorem copy_array_ne_no_fuel (f : Nat)
    (ih : ∀ (s : List Byte) (obj : PackedValue), s.length < f →
      copy_object ListStream.read f s obj ≠ .no_fuel) :
    ∀ (n : Nat) (s : List Byte) (obj : PackedValue), s.length < f →
      copy_array (copy_object ListStream.read f) n s obj ≠ .no_fuel := by
  intro n
  induction n with
  | zero => intro s obj _; simp [copy_array]
  | succ n ihn =>
    intro s obj hs
    simp only [copy_array]
    cases hco : copy_object ListStream.read f s obj with
    | ok a r =>
      simp only [and_then_ok]
      have := copy_object_progress f s r obj a hco
      exact ihn r a (by omega)
    | raise e r => simp
    | no_fuel => exact absurd hco (ih s obj hs)

/-- A length field and what follows it never exhaust the budget, if what follows
does not on what is left of the stream. -/
theorem len_then_ne_no_fuel (s : List Byte) (obj : PackedValue) (k : Nat)
    (g : List Byte × PackedValue → List Byte → Outcome (List Byte) PackedValue)
    (hg : ∀ l r, r.length ≤ s.length → g l r ≠ .no_fuel) :
    (copy_bytes ListStream.read s obj k).and_then g ≠ .no_fuel := by
  unfold copy_bytes ListStream.read
  split
  · simp only [and_then_ok]
    exact hg _ _ (by simp)
  · simp

/-- With a budget above the length of the stream, `copy_object` ends in success or
in a failure: the budget is not exhausted. -/
theorem copy_object_ne_no_fuel (fuel : Nat) :
    ∀ (s : List Byte) (obj : PackedValue), s.length < fuel →
      copy_object ListStream.read fuel s obj ≠ .no_fuel := by
  induction fuel with
  | zero => intro s obj hs; omega
  | succ f ih =>
    intro s obj hs
    cases s with
    | nil => rw [copy_object_list_nil]; simp
    | cons t q =>
      simp only [List.length_cons] at hs
      have hq : q.length < f := by omega
      have harr := copy_array_ne_no_fuel f ih
      rw [copy_object_list_cons]
      cases hc : tag_class t with
      | immediate => simp [after_leader, hc]
      | fixed k => simp only [after_leader, hc]; exact discard_ptr_list_ne_no_fuel _ _ _
      | fixraw => simp only [after_leader, hc]; exact discard_ptr_list_ne_no_fuel _ _ _
      | fixarray => simp only [after_leader, hc]; exact harr _ _ _ hq
      | fixmap =>
        simp only [after_leader, hc, copy_map_eq_copy_array]; exact harr _ _ _ hq
      | raw16 =>
        simp only [after_leader, hc]
        exact len_then_ne_no_fuel _ _ _ _ (fun l r _ => discard_ptr_list_ne_no_fuel _ _ _)
      | raw32 =>
        simp only [after_leader, hc]
        exact len_then_ne_no_fuel _ _ _ _ (fun l r _ => discard_ptr_list_ne_no_fuel _ _ _)
      | array16 =>
        simp only [after_leader, hc]
        exact len_then_ne_no_fuel _ _ _ _ (fun l r hr => harr _ _ _ (by omega))
      | array32 =>
        simp only [after_leader, hc]
        exact len_then_ne_no_fuel _ _ _ _ (fun l r hr => harr _ _ _ (by omega))
      | map16 =>
        simp only [after_leader, hc, copy_map_eq_copy_array]
        exact len_then_ne_no_fuel _ _ _ _ (fun l r hr => harr _ _ _ (by omega))
      | map32 =>
        simp only [after_leader, hc, copy_map_eq_copy_array]
        exact len_then_ne_no_fuel _ _ _ _ (fun l r hr => harr _ _ _ (by omega))
      | unknown => simp [after_leader, hc]

/-- A loop of `copy_array` that does not exhaust the budget gives the same outcome
with a callee that agrees with its own wherever that one does not exhaust it. -/
theorem copy_array_mono {σ : Type} (co co1 : σ → PackedValue → Outcome σ PackedValue)
    (h : ∀ u obj, co u obj ≠ .no_fuel → co1 u obj = co u obj) :
    ∀ (n : Nat) (u : σ) (obj : PackedValue), copy_array co n u obj ≠ .no_fuel →
      copy_array co1 n u obj = copy_array co n u obj := by
  intro n
  induction n with
  | zero => intro u obj _; rfl
  | succ n ihn =>
    intro u obj hne
    simp only [copy_array] at hne ⊢
    cases hco : co u obj with
    | ok a r =>
      rw [h u obj (by rw [hco]; simp), hco]
      rw [hco] at hne
      simp only [and_then_ok] at hne ⊢
      exact ihn r a hne
    | raise e r => rw [h u obj (by rw [hco]; simp), hco]; rfl
    | no_fuel => rw [hco] at hne; simp at hne

/-- Sequencing after a length field, with continuations that agree where the first
does not exhaust the budget. -/
theorem and_then_mono {σ α : Type} (x : Outcome σ α) (g g1 : α → σ → Outcome σ PackedValue)
    (h : ∀ a u, g a u ≠ .no_fuel → g1 a u = g a u) (hne : x.and_then g ≠ .no_fuel) :
    x.and_then g1 = x.and_then g := by
  cases x with
  | ok a u => exact h a u hne
  | raise e u => rfl
  | no_fuel => rfl

/-- One more unit of budget does not change an outcome that did not exhaust it. -/
theorem copy_object_succ_fuel {σ : Type} (read : σ → Nat → Outcome σ (List Byte)) (f : Nat) :
    ∀ (u : σ) (obj : PackedValue), copy_object read f u obj ≠ .no_fuel →
      copy_object read (f + 1) u obj = copy_object read f u obj := by
  induction f with
  | zero => intro u obj h; simp [copy_object] at h
  | succ f ih =>
    intro u obj hne
    have harr := copy_array_mono (copy_object read f) (copy_object read (f + 1)) ih
    rw [copy_object_succ] at hne ⊢
    rw [copy_object_succ read f]
    refine and_then_mono _ _ _ ?_ hne
    intro r u1 hne1
    cases hc : tag_class (r.1.getD 0 0) with
    | immediate => simp only [after_leader, hc]
    | fixed k => simp only [after_leader, hc]
    | fixraw => simp only [after_leader, hc]
    | fixarray =>
      simp only [after_leader, hc] at hne1 ⊢
      exact harr _ _ _ hne1
    | fixmap =>
      simp only [after_leader, hc, copy_map_eq_copy_array] at hne1 ⊢
      exact harr _ _ _ hne1
    | raw16 => simp only [after_leader, hc]
    | raw32 => simp only [after_leader, hc]
    | array16 =>
      simp only [after_leader, hc] at hne1 ⊢
      exact and_then_mono _ _ _ (fun l u2 h2 => harr _ _ _ h2) hne1
    | array32 =>
      simp only [after_leader, hc] at hne1 ⊢
      exact and_then_mono _ _ _ (fun l u2 h2 => harr _ _ _ h2) hne1
    | map16 =>
      simp only [after_leader, hc, copy_map_eq_copy_array] at hne1 ⊢
      exact and_then_mono _ _ _ (fun l u2 h2 => harr _ _ _ h2) hne1
    | map32 =>
      simp only [after_leader, hc, copy_map_eq_copy_array] at hne1 ⊢
      exact and_then_mono _ _ _ (fun l u2 h2 => harr _ _ _ h2) hne1
    | unknown => simp only [after_leader, hc]

/-- Any budget above the length of the stream gives the outcome of the least such
budget. -/
theorem copy_object_fuel_irrelevant (s : List Byte) (obj : PackedValue) :
    ∀ fuel, s.length < fuel →
      copy_object ListStream.read fuel s obj = copy_object ListStream.read (s.length + 1) s obj := by
  intro fuel hf
  obtain ⟨d, rfl⟩ : ∃ d, fuel = s.length + 1 + d := ⟨fuel - (s.length + 1), by omega⟩
  induction d with
  | zero => rfl
  | succ d ih =>
    have hne := copy_object_ne_no_fuel (s.length + 1 + d) s obj (by omega)
    rw [← ih (by omega)]
    exact copy_object_succ_fuel ListStream.read _ s obj hne

/-- C17 (termination): on every finite list stream, transcription ends in success
or in a failure, never by exhausting the budget, and every budget above the
stream length gives the same outcome; every successful `copy_object` has
consumed at least one byte, so a loop over `n` values that succeeds has
consumed at least `n` bytes; an array32 or map32 header announcing `2^32 - 1`
elements on a stream that ends there fails with the stream's short read. -/
theorem transcription_terminates :
    (∀ (s : List Byte) (obj : PackedValue), transcribe s obj ≠ .no_fuel)
    ∧ (∀ (s : List Byte) (obj : PackedValue) (fuel : Nat), s.length < fuel →
        operator_rshift ListStream.read fuel s obj = transcribe s obj)
    ∧ (∀ (fuel : Nat) (s r : List Byte) (obj obj1 : PackedValue),
        copy_object ListStream.read fuel s obj = .ok obj1 r → r.length < s.length)
    ∧ (∀ (fuel n : Nat) (s r : List Byte) (obj obj1 : PackedValue),
        copy_array (copy_object ListStream.read fuel) n s obj = .ok obj1 r →
          r.length + n ≤ s.length)
    ∧ (∀ (fuel n : Nat) (s r : List Byte) (obj obj1 : PackedValue),
        copy_map (copy_object ListStream.read fuel) n s obj = .ok obj1 r →
          r.length + 2 * n ≤ s.length)
    ∧ transcribe [0xdd, 0xff, 0xff, 0xff, 0xff, 0xc0] ⟨[]⟩ = .raise .stream_error []
    ∧ transcribe [0xdf, 0xff, 0xff, 0xff, 0xff, 0xc0] ⟨[]⟩ = .raise .stream_error [] := by
  refine ⟨fun s obj => ?_, fun s obj fuel hf => ?_, copy_object_progress,
    copy_array_progress, fun fuel n s r obj obj1 h => ?_, by decide, by decide⟩
  · exact copy_object_ne_no_fuel _ s obj.clear (by omega)
  · exact copy_object_fuel_irrelevant s obj.clear fuel hf
  · rw [copy_map_eq_copy_array] at h
    exact copy_array_progress fuel (2 * n) s r obj obj1 h

/-! ## Tag classification -/

/-- The first branch of a chain. -/
theorem first_match_cons {α : Type} (c : Byte → Bool) (a : Byte → α)
    (bs : List ((Byte → Bool) × (Byte → α))) (d : Byte → α) (t : Byte) :
    first_match ((c, a) :: bs) d t = if c t = true then a t else first_match bs d t := by
  unfold first_match
  rw [List.find?_cons]
  cases h : c t <;> simp [h]

/-- A chain without branches. -/
theorem first_match_nil {α : Type} (d : Byte → α) (t : Byte) :
    first_match ([] : List ((Byte → Bool) × (Byte → α))) d t = d t := rfl

/-- The first passing element is the head of the passing elements. -/
theorem find?_eq_head?_filter {β : Type} (p : β → Bool) (l : List β) :
    l.find? p = (l.filter p).head? := by
  induction l with
  | nil => rfl
  | cons a l ih =>
    cases h : p a
    · simp only [List.find?_cons, List.filter_cons, h, ih]
      rfl
    · simp only [List.find?_cons, List.filter_cons, h]
      rfl

/-- When at most one test passes, the order of the branches does not matter. -/
theorem first_match_perm {α : Type} (bs bs1 : List ((Byte → Bool) × (Byte → α)))
    (d : Byte → α) (t : Byte) (hp : bs1.Perm bs)
    (h1 : (bs.filter (fun b => b.1 t)).length ≤ 1) :
    first_match bs1 d t = first_match bs d t := by
  have hf : bs1.filter (fun b => b.1 t) = bs.filter (fun b => b.1 t) := by
    have hperm := hp.filter (fun b => b.1 t)
    cases hb : bs.filter (fun b => b.1 t) with
    | nil => rw [hb] at hperm; exact List.perm_nil.mp hperm
    | cons a l =>
      cases l with
      | nil => rw [hb] at hperm; exact List.perm_singleton.mp hperm
      | cons a1 l1 => rw [hb] at h1; simp at h1
  unfold first_match
  rw [find?_eq_head?_filter, find?_eq_head?_filter, hf]

set_option maxRecDepth 100000 in
/-- Every byte is in exactly one class of the table, or in none and then unknown. -/
theorem leader_classes_count : ∀ t : Byte,
    (leader_classes.filter (fun c => c t)).length = if is_unknown_tag t then 0 else 1 := by
  decide

set_option maxRecDepth 100000 in
/-- At most one test of `copy_object` passes on a byte, and none does exactly on the
unknown tags. -/
theorem copy_object_tests_count : ∀ t : Byte,
    (copy_object_tests.filter (fun c => c t)).length = if is_unknown_tag t then 0 else 1 := by
  decide

/-- The code of `copy_object` after the leader is the chain of its branches. -/
theorem copy_object_eq_first_match {σ : Type} (read : σ → Nat → Outcome σ (List Byte))
    (fuel : Nat) (unpacker : σ) (obj : PackedValue) :
    copy_object read (fuel + 1) unpacker obj
      = (copy_bytes read unpacker obj 1).and_then fun r u =>
          first_match (copy_object_branches read fuel u r.2) (copy_object_default u)
            (r.1.getD 0 0) := by
  simp only [copy_object]
  congr 1
  funext r u
  simp only [copy_object_branches, first_match_cons, first_match_nil, decide_eq_true_eq,
    copy_object_default]

/-- On the empty list stream a loop of `copy_array` never ends in a format error. -/
theorem copy_array_nil_stream (f n : Nat) (obj : PackedValue) (what : String) (r : List Byte) :
    copy_array (copy_object ListStream.read f) n [] obj ≠ .raise (.unpacker_error what) r := by
  cases n with
  | zero => simp [copy_array]
  | succ n =>
    simp only [copy_array]
    cases f with
    | zero => simp [copy_object]
    | succ f => rw [copy_object_list_nil]; simp

/-- On the empty list stream a payload copy never ends in a format error. -/
theorem discard_ptr_nil_stream (k : Nat) (obj : PackedValue) (what : String) (r : List Byte) :
    discard_ptr (copy_bytes ListStream.read [] obj k) ≠ .raise (.unpacker_error what) r := by
  unfold discard_ptr copy_bytes ListStream.read
  split <;> simp

/-- On the empty list stream a length field cannot be read. -/
theorem len_nil_stream (k : Nat) (hk : 0 < k) (obj : PackedValue)
    (g : List Byte × PackedValue → List Byte → Outcome (List Byte) PackedValue)
    (what : String) (r : List Byte) :
    (copy_bytes ListStream.read [] obj k).and_then g ≠ .raise (.unpacker_error what) r := by
  rw [copy_bytes_list_short (by simpa using hk)]
  simp

/-- A stream holding the single byte `t` ends in a format error exactly when `t` is
no defined tag. -/
theorem single_byte_rejected_iff (t : Byte) (f : Nat) (obj : PackedValue) :
    (∃ what r, copy_object ListStream.read (f + 1) [t] obj = .raise (.unpacker_error what) r)
      ↔ is_unknown_tag t := by
  rw [copy_object_list_cons]
  constructor
  · rintro ⟨what, r, h⟩
    cases hc : tag_class t with
    | unknown => exact (tag_class_unknown_iff t).mp hc
    | immediate => simp [after_leader, hc] at h
    | fixed k => simp only [after_leader, hc] at h; exact absurd h (discard_ptr_nil_stream _ _ _ _)
    | fixraw => simp only [after_leader, hc] at h; exact absurd h (discard_ptr_nil_stream _ _ _ _)
    | fixarray =>
      simp only [after_leader, hc] at h; exact absurd h (copy_array_nil_stream _ _ _ _ _)
    | fixmap =>
      simp only [after_leader, hc, copy_map_eq_copy_array] at h
      exact absurd h (copy_array_nil_stream _ _ _ _ _)
    | raw16 =>
      simp only [after_leader, hc] at h; exact absurd h (len_nil_stream 2 (by omega) _ _ _ _)
    | raw32 =>
      simp only [after_leader, hc] at h; exact absurd h (len_nil_stream 4 (by omega) _ _ _ _)
    | array16 =>
      simp only [after_leader, hc] at h; exact absurd h (len_nil_stream 2 (by omega) _ _ _ _)
    | array32 =>
      simp only [after_leader, hc] at h; exact absurd h (len_nil_stream 4 (by omega) _ _ _ _)
    | map16 =>
      simp only [after_leader, hc] at h; exact absurd h (len_nil_stream 2 (by omega) _ _ _ _)
    | map32 =>
      simp only [after_leader, hc] at h; exact absurd h (len_nil_stream 4 (by omega) _ _ _ _)
  · intro hu
    have hc := (tag_class_unknown_iff t).mpr hu
    refine ⟨"Don't know how to size MessagePack type " ++ toString t.val, [], ?_⟩
    simp only [after_leader, hc]

/-- C14 (tag classification is total and unambiguous): every byte is in exactly one
class of the wire-format table, or in none, and then it is one of 0xc1,
0xc4-0xc9, 0xd4-0xd9; the tests of `copy_object` are pairwise disjoint (at most
one passes on a byte) and none passes exactly on those bytes; the code is the
chain of its branches, and any reordering of the branches gives the same
result; a stream holding a single byte is rejected with a format error
exactly when the byte is one of those. -/
theorem tag_classification_total_unambiguous :
    (∀ t : Byte,
        (leader_classes.filter (fun c => c t)).length = if is_unknown_tag t then 0 else 1)
    ∧ (∀ t : Byte, (copy_object_tests.filter (fun c => c t)).length ≤ 1)
    ∧ (∀ t : Byte, (copy_object_tests.all (fun c => !c t)) = true ↔ is_unknown_tag t)
    ∧ (∀ t : Byte, is_unknown_tag t ↔
        (t = 0xc1 ∨ (0xc4 ≤ t ∧ t ≤ 0xc9) ∨ (0xd4 ≤ t ∧ t ≤ 0xd9)))
    ∧ (∀ (read : List Byte → Nat → Outcome (List Byte) (List Byte)) (fuel : Nat)
        (unpacker : List Byte) (obj : PackedValue),
        (copy_object_branches read fuel unpacker obj).map Prod.fst = copy_object_tests
        ∧ copy_object read (fuel + 1) unpacker obj
          = (copy_bytes read unpacker obj 1).and_then fun r u =>
              first_match (copy_object_branches read fuel u r.2) (copy_object_default u)
                (r.1.getD 0 0))
    ∧ (∀ (read : List Byte → Nat → Outcome (List Byte) (List Byte)) (fuel : Nat)
        (unpacker : List Byte) (obj : PackedValue)
        (reordered : List ((Byte → Bool) × (Byte → Outcome (List Byte) PackedValue)))
        (leader : Byte),
        reordered.Perm (copy_object_branches read fuel unpacker obj) →
          first_match reordered (copy_object_default unpacker) leader
            = first_match (copy_object_branches read fuel unpacker obj)
                (copy_object_default unpacker) leader)
    ∧ (∀ (t : Byte) (f : Nat) (obj : PackedValue),
        (∃ what r, copy_object ListStream.read (f + 1) [t] obj
            = .raise (.unpacker_error what) r) ↔ is_unknown_tag t) := by
  refine ⟨leader_classes_count, fun t => ?_, fun t => ?_, fun t => Iff.rfl,
    fun read fuel unpacker obj => ⟨rfl, copy_object_eq_first_match read fuel unpacker obj⟩,
    fun read fuel unpacker obj reordered leader hp => ?_, single_byte_rejected_iff⟩
  · rw [copy_object_tests_count]; split <;> omega
  · have h := copy_object_tests_count t
    constructor
    · intro hall
      by_contra hk
      rw [if_neg hk] at h
      have hnil : copy_object_tests.filter (fun c => c t) = [] := by
        rw [List.filter_eq_nil_iff]
        intro c hc
        have := List.all_eq_true.mp hall c hc
        simpa using this
      rw [hnil] at h
      simp at h
    · intro hu
      rw [if_pos hu] at h
      have hnil := List.length_eq_zero.mp h
      rw [List.filter_eq_nil_iff] at hnil
      rw [List.all_eq_true]
      intro c hc
      simpa using hnil c hc
  · apply first_match_perm _ _ _ _ hp
    have hmap : (copy_object_branches read fuel unpacker obj).map Prod.fst = copy_object_tests :=
      rfl
    have h := copy_object_tests_count leader
    rw [← hmap, List.filter_map, List.length_map] at h
    have hcomp : ((fun c : Byte → Bool => c leader) ∘ Prod.fst)
        = (fun b : (Byte → Bool) × (Byte → Outcome (List Byte) PackedValue) => b.1 leader) := rfl
    rw [hcomp] at h
    rw [h]
    split <;> omega

/-! ## The bytes of the row encoding -/

/-- The short array markers. -/
theorem fixarray_marker : ∀ n, n < 16 →
    tag_class (byte_of (MSGPACK_FIXARRAY_MIN.val + n)) = .fixarray
      ∧ (byte_of (MSGPACK_FIXARRAY_MIN.val + n)).val % 16 = n := by
  decide

/-- The short string markers. -/
theorem fixraw_marker : ∀ n, n < 32 →
    tag_class (byte_of (MSGPACK_FIXRAW_MIN.val + n)) = .fixraw
      ∧ (byte_of (MSGPACK_FIXRAW_MIN.val + n)).val % 32 = n := by
  decide

/-- A 16-bit length field decodes to the length it encodes. -/
theorem be16_byte_of (n : Nat) (h : n < 65536) : be16 (byte_of (n / 256)) (byte_of n) = n := by
  simp only [be16, byte_of]
  omega

/-- A 32-bit length field decodes to the length it encodes. -/
theorem be32_byte_of (n : Nat) (h : n < 2 ^ 32) :
    be32 (byte_of (n / 16777216)) (byte_of (n / 65536)) (byte_of (n / 256)) (byte_of n) = n := by
  simp only [be32, byte_of]
  omega

/-- A string of fewer than `2^32` bytes, length-prefixed, is a well-formed value. -/
theorem string_wellFormed (str : List Byte) (h : str.length < 2 ^ 32) :
    WellFormed (raw_marker str.length ++ str) := by
  unfold raw_marker
  split
  · rename_i h1
    obtain ⟨ht, hl⟩ := fixraw_marker _ h1
    simpa using WellFormedSeq.fixraw _ str 0 [] ht hl.symm .nil
  · split
    · rename_i h2
      simpa [be16_bytes] using WellFormedSeq.raw16 MSGPACK_RAW16 (byte_of (str.length / 256))
        (byte_of str.length) str 0 [] rfl (be16_byte_of _ h2).symm .nil
    · simpa [be32_bytes] using WellFormedSeq.raw32 MSGPACK_RAW32
        (byte_of (str.length / 16777216)) (byte_of (str.length / 65536))
        (byte_of (str.length / 256)) (byte_of str.length) str 0 [] rfl
        (be32_byte_of _ h).symm .nil

/-- The encoding of a column is a well-formed value. -/
theorem column_wellFormed (row : DatabaseRow) (i : Nat)
    (h : row.null_at i = false → (row.string_at i).length < 2 ^ 32) :
    WellFormed (column_encoding row i) := by
  unfold column_encoding
  cases hn : row.null_at i with
  | true => exact .immediate MSGPACK_NIL 0 [] rfl .nil
  | false => simpa using string_wellFormed _ (h hn)

/-- The encodings of the columns `is`, one after the other. -/
theorem columns_wellFormed (row : DatabaseRow) (is : List Nat)
    (h : ∀ i, i ∈ is → row.null_at i = false → (row.string_at i).length < 2 ^ 32) :
    WellFormedSeq is.length (is.flatMap (column_encoding row)) := by
  induction is with
  | nil => exact .nil
  | cons i is ih =>
    rw [List.flatMap_cons]
    exact (column_wellFormed row i (h i (List.mem_cons_self i is))).append
      (ih (fun k hk => h k (List.mem_cons_of_mem i hk)))

/-- An array-length marker for `n < 2^32` followed by `n` values is a well-formed
value. -/
theorem array_wellFormed (n : Nat) (body : List Byte) (hn : n < 2 ^ 32)
    (hb : WellFormedSeq n body) : WellFormed (array_length_marker n ++ body) := by
  unfold array_length_marker
  split
  · rename_i h1
    obtain ⟨ht, hl⟩ := fixarray_marker _ h1
    rw [← hl] at hb
    simpa using WellFormedSeq.fixarray _ body 0 [] ht hb .nil
  · split
    · rename_i h2
      rw [← be16_byte_of _ h2] at hb
      simpa [be16_bytes] using WellFormedSeq.array16 MSGPACK_ARRAY16
        (byte_of (n / 256)) (byte_of n) body 0 [] rfl hb .nil
    · rw [← be32_byte_of _ hn] at hb
      simpa [be32_bytes] using WellFormedSeq.array32 MSGPACK_ARRAY32
        (byte_of (n / 16777216)) (byte_of (n / 65536))
        (byte_of (n / 256)) (byte_of n) body 0 [] rfl hb .nil

/-- The encoding of a bounded row is a well-formed value. -/
theorem row_wellFormed (row : DatabaseRow) (h : row.Bounded) : WellFormed (row_encoding row) := by
  obtain ⟨hn, hs⟩ := h
  have hcols : WellFormedSeq row.n_columns
      ((List.range row.n_columns).flatMap (column_encoding row)) := by
    have := columns_wellFormed row (List.range row.n_columns)
      (fun i hi => hs i (List.mem_range.mp hi))
    simpa using this
  exact array_wellFormed _ _ hn hcols

/-! ## Relaying row encodings -/

/-- The end marker is a well-formed value. -/
theorem end_marker_wellFormed : WellFormed (array_length_marker 0) :=
  .fixarray 0x90 [] 0 [] (by decide) .nil .nil

/-- Repeated transcription splits a run of well-formed values into those values. -/
theorem transcribe_many_of_wellFormed (values : List (List Byte))
    (h : ∀ v, v ∈ values → WellFormed v) (rest : List Byte) :
    transcribe_many values.length (values.flatten ++ rest)
      = .ok (values.map PackedValue.mk) rest := by
  induction values with
  | nil => rfl
  | cons v values ih =>
    have hv := h v (List.mem_cons_self v values)
    have ht : transcribe (v ++ (values.flatten ++ rest)) ⟨[]⟩ = .ok ⟨v⟩ (values.flatten ++ rest) :=
      operator_rshift_of_wellFormed hv _ _ _ (by simp; omega)
    simp only [List.length_cons, List.flatten_cons, List.append_assoc, transcribe_many, ht,
      and_then_ok, ih (fun w hw => h w (List.mem_cons_of_mem v hw)), List.map_cons]

/-- C19 (row encodings are relayable by the Format Walker): for every row whose
column count and string lengths are below `2^32`, with `RowPacker` encoding
`e`, and for the end marker, transcribing from `e ++ rest` succeeds with buffer
exactly `e` and remaining stream exactly `rest`; so the output of a `RowPacker`
that visited such rows and then wrote the end marker is split by repeated
transcription into the row encodings followed by the one-byte end marker. -/
theorem row_encodings_relayable :
    (∀ (row : DatabaseRow) (rest : List Byte) (obj0 : PackedValue), row.Bounded →
        transcribe (RowPacker.call ListStream.write [] row ++ rest) obj0
          = .ok ⟨RowPacker.call ListStream.write [] row⟩ rest)
    ∧ (∀ (rest : List Byte) (obj0 : PackedValue),
        transcribe (RowPacker.pack_end ListStream.write [] ++ rest) obj0
          = .ok ⟨RowPacker.pack_end ListStream.write []⟩ rest)
    ∧ RowPacker.pack_end ListStream.write [] = [0x90]
    ∧ (∀ (rows : List DatabaseRow) (rest : List Byte), (∀ row, row ∈ rows → row.Bounded) →
        transcribe_many (rows.length + 1)
            (RowPacker.pack_end ListStream.write
              (visit_rows (RowPacker.call ListStream.write) [] rows) ++ rest)
          = .ok (rows.map (fun row => ⟨RowPacker.call ListStream.write [] row⟩)
              ++ [⟨RowPacker.pack_end ListStream.write []⟩]) rest) := by
  have henc : ∀ row : DatabaseRow, RowPacker.call ListStream.write [] row = row_encoding row := by
    intro row
    simpa using RowPacker.call_list row []
  have hend : RowPacker.pack_end ListStream.write [] = array_length_marker 0 := rfl
  refine ⟨fun row rest obj0 hb => ?_, fun rest obj0 => ?_, rfl, fun rows rest hb => ?_⟩
  · rw [henc]
    exact operator_rshift_of_wellFormed (row_wellFormed row hb) rest obj0 _ (by simp; omega)
  · rw [hend]
    exact operator_rshift_of_wellFormed end_marker_wellFormed rest obj0 _ (by simp; omega)
  · have hstream : RowPacker.pack_end ListStream.write
          (visit_rows (RowPacker.call ListStream.write) [] rows)
        = (rows.map row_encoding ++ [array_length_marker 0]).flatten := by
      rw [visit_rows_RowPacker]
      simp [RowPacker.pack_end, Packer.pack_array_length, ListStream.write, List.flatMap]
    have hwf : ∀ v, v ∈ rows.map row_encoding ++ [array_length_marker 0] → WellFormed v := by
      intro v hv
      rcases List.mem_append.mp hv with h1 | h1
      · obtain ⟨row, hrow, rfl⟩ := List.mem_map.mp h1
        exact row_wellFormed row (hb row hrow)
      · rw [List.mem_singleton.mp h1]
        exact end_marker_wellFormed
    have hmany := transcribe_many_of_wellFormed _ hwf rest
    rw [hstream]
    simp only [List.length_append, List.length_map, List.length_cons, List.length_nil,
      Nat.zero_add, List.map_append, List.map_map, List.map_cons, List.map_nil] at hmany
    rw [hmany]
    simp only [henc, hend]
    rfl

/-- Witness of C19: the sample row, then the end marker, then two more bytes. -/
theorem row_encodings_relayable_witness :
    sample_row.Bounded ∧
    transcribe (RowPacker.call ListStream.write [] sample_row ++ [0x90, 0x01, 0x02]) ⟨[0x09]⟩
      = .ok ⟨RowPacker.call ListStream.write [] sample_row⟩ [0x90, 0x01, 0x02] :=
  have hb : sample_row.Bounded := by
    refine ⟨by decide, fun i hi _ => ?_⟩
    have hi3 : i < 3 := hi
    interval_cases i <;> decide
  ⟨hb, row_encodings_relayable.1 sample_row [0x90, 0x01, 0x02] ⟨[0x09]⟩ hb⟩

/-- The first byte of an array-length marker for one element or more is not the
end marker. -/
theorem array_length_marker_head (n : Nat) (h : 0 < n) :
    ∃ b tl, array_length_marker n = b :: tl ∧ b ≠ 0x90 := by
  unfold array_length_marker
  split
  · rename_i h1
    refine ⟨_, [], rfl, ?_⟩
    intro hb
    have hv : (144 + n) % 256 = 144 := congrArg Fin.val hb
    omega
  · split
    · exact ⟨_, _, rfl, by decide⟩
    · exact ⟨_, _, rfl, by decide⟩

/-- C20 (end marker versus rows): the `RowPacker` encoding of a row is byte-identical
to the end marker written by `pack_end` if and only if the row has zero
columns; for every row with at least one column the first byte of its encoding
differs from the end marker. -/
theorem end_marker_versus_rows :
    (∀ row : DatabaseRow,
        RowPacker.call ListStream.write [] row = RowPacker.pack_end ListStream.write []
          ↔ row.n_columns = 0)
    ∧ (∀ row : DatabaseRow, 0 < row.n_columns →
        (RowPacker.call ListStream.write [] row).head?
          ≠ (RowPacker.pack_end ListStream.write []).head?) := by
  have henc : ∀ row : DatabaseRow, RowPacker.call ListStream.write [] row = row_encoding row := by
    intro row
    simpa using RowPacker.call_list row []
  have hend : RowPacker.pack_end ListStream.write [] = [0x90] := rfl
  have hhead : ∀ row : DatabaseRow, 0 < row.n_columns →
      (RowPacker.call ListStream.write [] row).head?
        ≠ (RowPacker.pack_end ListStream.write []).head? := by
    intro row hpos
    rw [henc, hend, row_encoding]
    obtain ⟨b, tl, hm, hne⟩ := array_length_marker_head row.n_columns hpos
    rw [hm]
    simpa using hne
  refine ⟨fun row => ⟨fun h => ?_, fun h => ?_⟩, hhead⟩
  · by_contra hne
    exact hhead row (Nat.pos_of_ne_zero hne) (by rw [h])
  · rw [henc, hend, row_encoding, h]
    rfl

/-- Witness of C20: the sample row has three columns. -/
theorem end_marker_versus_rows_witness :
    0 < sample_row.n_columns ∧
    (RowPacker.call ListStream.write [] sample_row).head?
      ≠ (RowPacker.pack_end ListStream.write []).head? :=
  ⟨by decide, end_marker_versus_rows.2 sample_row (by decide)⟩

/-! ## The row encoding is injective -/

/-- The three forms of `array_length_marker`. -/
theorem array_length_marker_forms (n : Nat) :
    (n < 16 ∧ array_length_marker n = [byte_of (144 + n)])
      ∨ (16 ≤ n ∧ n < 65536 ∧ array_length_marker n = [MSGPACK_ARRAY16, byte_of (n / 256), byte_of n])
      ∨ (65536 ≤ n ∧ array_length_marker n
          = [MSGPACK_ARRAY32, byte_of (n / 16777216), byte_of (n / 65536), byte_of (n / 256),
              byte_of n]) := by
  unfold array_length_marker
  by_cases h1 : n < 16
  · exact .inl ⟨h1, by rw [if_pos h1]; rfl⟩
  · by_cases h2 : n < 65536
    · exact .inr (.inl ⟨by omega, h2, by rw [if_neg h1, if_pos h2]; rfl⟩)
    · exact .inr (.inr ⟨by omega, by rw [if_neg h1, if_neg h2]; rfl⟩)

/-- The marker written by `array_length_marker` determines the length below `2^32`, and
where the marker ends. -/
theorem array_length_marker_inj (n m : Nat) (x y : List Byte) (hn : n < 2 ^ 32) (hm : m < 2 ^ 32)
    (h : array_length_marker n ++ x = array_length_marker m ++ y) : n = m ∧ x = y := by
  rcases array_length_marker_forms n with ⟨hn1, en⟩ | ⟨hn1, hn2, en⟩ | ⟨hn1, en⟩ <;>
    rcases array_length_marker_forms m with ⟨hm1, em⟩ | ⟨hm1, hm2, em⟩ | ⟨hm1, em⟩ <;>
    rw [en, em] at h <;>
    simp only [List.cons_append, List.nil_append, List.cons.injEq] at h
  · obtain ⟨h0, hxy⟩ := h
    have e0 : (144 + n) % 256 = (144 + m) % 256 := congrArg Fin.val h0
    exact ⟨by omega, hxy⟩
  · have e0 : (144 + n) % 256 = 220 := congrArg Fin.val h.1
    omega
  · have e0 : (144 + n) % 256 = 221 := congrArg Fin.val h.1
    omega
  · have e0 : 220 = (144 + m) % 256 := congrArg Fin.val h.1
    omega
  · obtain ⟨_, h0, h1, hxy⟩ := h
    have e0 : n / 256 % 256 = m / 256 % 256 := congrArg Fin.val h0
    have e1 : n % 256 = m % 256 := congrArg Fin.val h1
    exact ⟨by omega, hxy⟩
  · exact absurd h.1 (by decide)
  · have e0 : 221 = (144 + m) % 256 := congrArg Fin.val h.1
    omega
  · exact absurd h.1 (by decide)
  · obtain ⟨_, h0, h1, h2, h3, hxy⟩ := h
    have e0 : n / 16777216 % 256 = m / 16777216 % 256 := congrArg Fin.val h0
    have e1 : n / 65536 % 256 = m / 65536 % 256 := congrArg Fin.val h1
    have e2 : n / 256 % 256 = m / 256 % 256 := congrArg Fin.val h2
    have e3 : n % 256 = m % 256 := congrArg Fin.val h3
    exact ⟨by omega, hxy⟩

/-- The three forms of `raw_marker`. -/
theorem raw_marker_forms (n : Nat) :
    (n < 32 ∧ raw_marker n = [byte_of (160 + n)])
      ∨ (32 ≤ n ∧ n < 65536 ∧ raw_marker n = [MSGPACK_RAW16, byte_of (n / 256), byte_of n])
      ∨ (65536 ≤ n ∧ raw_marker n
          = [MSGPACK_RAW32, byte_of (n / 16777216), byte_of (n / 65536), byte_of (n / 256),
              byte_of n]) := by
  unfold raw_marker
  by_cases h1 : n < 32
  · exact .inl ⟨h1, by rw [if_pos h1]; rfl⟩
  · by_cases h2 : n < 65536
    · exact .inr (.inl ⟨by omega, h2, by rw [if_neg h1, if_pos h2]; rfl⟩)
    · exact .inr (.inr ⟨by omega, by rw [if_neg h1, if_neg h2]; rfl⟩)

/-- The marker written by `raw_marker` determines the length below `2^32`, and
where the marker ends. -/
theorem raw_marker_inj (n m : Nat) (x y : List Byte) (hn : n < 2 ^ 32) (hm : m < 2 ^ 32)
    (h : raw_marker n ++ x = raw_marker m ++ y) : n = m ∧ x = y := by
  rcases raw_marker_forms n with ⟨hn1, en⟩ | ⟨hn1, hn2, en⟩ | ⟨hn1, en⟩ <;>
    rcases raw_marker_forms m with ⟨hm1, em⟩ | ⟨hm1, hm2, em⟩ | ⟨hm1, em⟩ <;>
    rw [en, em] at h <;>
    simp only [List.cons_append, List.nil_append, List.cons.injEq] at h
  · obtain ⟨h0, hxy⟩ := h
    have e0 : (160 + n) % 256 = (160 + m) % 256 := congrArg Fin.val h0
    exact ⟨by omega, hxy⟩
  · have e0 : (160 + n) % 256 = 218 := congrArg Fin.val h.1
    omega
  · have e0 : (160 + n) % 256 = 219 := congrArg Fin.val h.1
    omega
  · have e0 : 218 = (160 + m) % 256 := congrArg Fin.val h.1
    omega
  · obtain ⟨_, h0, h1, hxy⟩ := h
    have e0 : n / 256 % 256 = m / 256 % 256 := congrArg Fin.val h0
    have e1 : n % 256 = m % 256 := congrArg Fin.val h1
    exact ⟨by omega, hxy⟩
  · exact absurd h.1 (by decide)
  · have e0 : 219 = (160 + m) % 256 := congrArg Fin.val h.1
    omega
  · exact absurd h.1 (by decide)
  · obtain ⟨_, h0, h1, h2, h3, hxy⟩ := h
    have e0 : n / 16777216 % 256 = m / 16777216 % 256 := congrArg Fin.val h0
    have e1 : n / 65536 % 256 = m / 65536 % 256 := congrArg Fin.val h1
    have e2 : n / 256 % 256 = m / 256 % 256 := congrArg Fin.val h2
    have e3 : n % 256 = m % 256 := congrArg Fin.val h3
    exact ⟨by omega, hxy⟩

/-- The first byte of a string marker is not the nil marker. -/
theorem raw_marker_head (n : Nat) : ∃ b tl, raw_marker n = b :: tl ∧ b ≠ MSGPACK_NIL := by
  rcases raw_marker_forms n with ⟨h1, e⟩ | ⟨_, _, e⟩ | ⟨_, e⟩
  · refine ⟨_, _, e, ?_⟩
    intro hb
    have hv : (160 + n) % 256 = 192 := congrArg Fin.val hb
    omega
  · exact ⟨_, _, e, by decide⟩
  · exact ⟨_, _, e, by decide⟩

/-- The encoding of a column determines the column, and where the encoding ends. -/
theorem cell_encoding_inj (a b : Option (List Byte)) (x y : List Byte)
    (ha : ∀ str, a = some str → str.length < 2 ^ 32)
    (hb : ∀ str, b = some str → str.length < 2 ^ 32)
    (h : cell_encoding a ++ x = cell_encoding b ++ y) : a = b ∧ x = y := by
  cases a with
  | none =>
    cases b with
    | none => simpa [cell_encoding, nil_marker] using h
    | some t =>
      obtain ⟨c, tl, hm, hne⟩ := raw_marker_head t.length
      simp only [cell_encoding, nil_marker, hm, List.cons_append, List.nil_append,
        List.cons.injEq] at h
      exact absurd h.1.symm hne
  | some s1 =>
    cases b with
    | none =>
      obtain ⟨c, tl, hm, hne⟩ := raw_marker_head s1.length
      simp only [cell_encoding, nil_marker, hm, List.cons_append, List.nil_append,
        List.cons.injEq] at h
      exact absurd h.1 hne
    | some t =>
      simp only [cell_encoding, List.append_assoc] at h
      obtain ⟨hlen, hrest⟩ := raw_marker_inj _ _ _ _ (ha s1 rfl) (hb t rfl) h
      obtain ⟨hst, hxy⟩ := List.append_inj hrest hlen
      exact ⟨by rw [hst], hxy⟩

/-- The encodings of equally many columns determine the columns. -/
theorem cells_encoding_inj (c1 : List (Option (List Byte))) :
    ∀ (c2 : List (Option (List Byte))) (x y : List Byte), c1.length = c2.length →
      (∀ str, some str ∈ c1 → str.length < 2 ^ 32) →
      (∀ str, some str ∈ c2 → str.length < 2 ^ 32) →
      c1.flatMap cell_encoding ++ x = c2.flatMap cell_encoding ++ y → c1 = c2 ∧ x = y := by
  induction c1 with
  | nil =>
    intro c2 x y hlen _ _ h
    have : c2 = [] := List.length_eq_zero.mp hlen.symm
    subst this
    exact ⟨rfl, by simpa using h⟩
  | cons a c1 ih =>
    intro c2 x y hlen h1 h2 h
    cases c2 with
    | nil => simp at hlen
    | cons b c2 =>
      simp only [List.flatMap_cons, List.append_assoc] at h
      obtain ⟨hab, hrest⟩ := cell_encoding_inj a b _ _
        (fun str hs => h1 str (by rw [hs]; exact List.mem_cons_self _ _))
        (fun str hs => h2 str (by rw [hs]; exact List.mem_cons_self _ _)) h
      obtain ⟨hc, hxy⟩ := ih c2 x y (by simpa using hlen)
        (fun str hs => h1 str (List.mem_cons_of_mem _ hs))
        (fun str hs => h2 str (List.mem_cons_of_mem _ hs)) hrest
      exact ⟨by rw [hab, hc], hxy⟩

/-- The encoding of a row determines the row, and where the encoding ends. -/
theorem columns_encoding_inj (c1 c2 : List (Option (List Byte))) (x y : List Byte)
    (h1 : ColumnsBounded c1) (h2 : ColumnsBounded c2)
    (h : columns_encoding c1 ++ x = columns_encoding c2 ++ y) : c1 = c2 ∧ x = y := by
  simp only [columns_encoding, List.append_assoc] at h
  obtain ⟨hlen, hrest⟩ := array_length_marker_inj _ _ _ _ h1.1 h2.1 h
  exact cells_encoding_inj c1 c2 x y hlen h1.2 h2.2 hrest

/-- The encoding of a row is never empty. -/
theorem columns_encoding_ne_nil (c : List (Option (List Byte))) : columns_encoding c ≠ [] := by
  unfold columns_encoding
  rcases array_length_marker_forms c.length with ⟨_, e⟩ | ⟨_, _, e⟩ | ⟨_, e⟩ <;> rw [e] <;> simp

/-- The encoding of a row sequence determines the rows. -/
theorem rows_encoding_inj (rows1 : List (List (Option (List Byte)))) :
    ∀ rows2 : List (List (Option (List Byte))),
      (∀ c, c ∈ rows1 → ColumnsBounded c) → (∀ c, c ∈ rows2 → ColumnsBounded c) →
      rows1.flatMap columns_encoding = rows2.flatMap columns_encoding → rows1 = rows2 := by
  induction rows1 with
  | nil =>
    intro rows2 _ _ h
    cases rows2 with
    | nil => rfl
    | cons c rows2 =>
      simp only [List.flatMap_nil, List.flatMap_cons] at h
      have := List.append_eq_nil.mp h.symm
      exact absurd this.1 (columns_encoding_ne_nil c)
  | cons c1 rows1 ih =>
    intro rows2 h1 h2 h
    cases rows2 with
    | nil =>
      simp only [List.flatMap_nil, List.flatMap_cons] at h
      have := List.append_eq_nil.mp h
      exact absurd this.1 (columns_encoding_ne_nil c1)
    | cons c2 rows2 =>
      simp only [List.flatMap_cons] at h
      obtain ⟨hc, hrest⟩ := columns_encoding_inj c1 c2 _ _
        (h1 c1 (List.mem_cons_self _ _)) (h2 c2 (List.mem_cons_self _ _)) h
      rw [hc, ih rows2 (fun c hm => h1 c (List.mem_cons_of_mem _ hm))
        (fun c hm => h2 c (List.mem_cons_of_mem _ hm)) hrest]

/-- The encoding of a row built from its list of columns. -/
theorem row_encoding_of_columns (columns : List (Option (List Byte))) :
    row_encoding (DatabaseRow.of_columns columns) = columns_encoding columns := by
  unfold row_encoding columns_encoding
  congr 1
  have hcol : column_encoding (DatabaseRow.of_columns columns)
      = fun i => cell_encoding (columns.getD i none) := by
    funext i
    simp only [column_encoding, DatabaseRow.of_columns]
    cases columns.getD i none <;> simp [cell_encoding]
  have hn : (DatabaseRow.of_columns columns).n_columns = columns.length := rfl
  rw [hcol, hn]
  simp only [List.flatMap]
  rw [map_range_getD columns none cell_encoding]

/-- What a fresh `RowHasher` has fed to the digest after rows given by their columns. -/
theorem fed_bytes_of_columns (rows : List (List (Option (List Byte)))) :
    (visit_rows RowHasher.call RowHasher.new (rows.map DatabaseRow.of_columns)).mdctx.flatten
      = rows.flatMap columns_encoding := by
  rw [visit_rows_RowHasher]
  simp only [RowHasher.new, List.flatten_nil, List.nil_append, List.flatMap, List.map_map]
  congr 1
  apply List.map_congr_left
  intro c _
  exact row_encoding_of_columns c

/-- C18 (the row-range encoding is injective): for two row sequences, rows being
lists of null-or-string columns with column counts and string lengths below
`2^32`, if the bytes a fresh `RowHasher` feeds to the digest are equal then the
sequences are equal; a null column and an empty-string column are fed as
different bytes, and so are one row of two columns and two rows of one. -/
theorem row_range_encoding_injective :
    (∀ rows1 rows2 : List (List (Option (List Byte))),
        (∀ c, c ∈ rows1 → ColumnsBounded c) → (∀ c, c ∈ rows2 → ColumnsBounded c) →
        (visit_rows RowHasher.call RowHasher.new (rows1.map DatabaseRow.of_columns)).mdctx.flatten
          = (visit_rows RowHasher.call RowHasher.new
              (rows2.map DatabaseRow.of_columns)).mdctx.flatten →
        rows1 = rows2)
    ∧ (visit_rows RowHasher.call RowHasher.new [DatabaseRow.of_columns [none]]).mdctx.flatten
        ≠ (visit_rows RowHasher.call RowHasher.new
            [DatabaseRow.of_columns [some []]]).mdctx.flatten
    ∧ (visit_rows RowHasher.call RowHasher.new
          [DatabaseRow.of_columns [some [0x61], some [0x62]]]).mdctx.flatten
        ≠ (visit_rows RowHasher.call RowHasher.new
            [DatabaseRow.of_columns [some [0x61]],
             DatabaseRow.of_columns [some [0x62]]]).mdctx.flatten := by
  refine ⟨fun rows1 rows2 h1 h2 h => ?_, by decide, by decide⟩
  rw [fed_bytes_of_columns, fed_bytes_of_columns] at h
  exact rows_encoding_inj rows1 rows2 h1 h2 h

/-- Witness of C18: the sequence `[["a", null], []]` against itself. -/
theorem row_range_encoding_injective_witness :
    (∀ c, c ∈ [[some [0x61], none], []] → ColumnsBounded c) ∧
    ([[some [0x61], none], []] : List (List (Option (List Byte))))
      = [[some [0x61], none], []] :=
  have hb : ∀ c, c ∈ ([[some [0x61], none], []] : List (List (Option (List Byte)))) →
      ColumnsBounded c := by
    intro c hc
    simp only [List.mem_cons, List.mem_singleton, List.not_mem_nil, or_false] at hc
    rcases hc with rfl | rfl
    · refine ⟨by decide, fun str hs => ?_⟩
      simp only [List.mem_cons, Option.some.injEq, List.mem_singleton, List.not_mem_nil,
        or_false] at hs
      rcases hs with rfl | hs
      · decide
      · exact absurd hs (by simp)
    · exact ⟨by decide, fun str hs => absurd hs (by simp)⟩
  ⟨hb, row_range_encoding_injective.1 _ _ hb hb rfl⟩

end KitchenSync
